import Mathlib

/-!
Verification development for the `@stravigor/kernel` core: the dependency
injection container (`Container`), the application lifecycle orchestrator
(`Application`: topological provider sort, phased register/boot, rollback,
reverse-order shutdown) and the async event bus (`Emitter`).

The TypeScript sources are shallowly embedded:
* providers are records of a name and declared dependency names;
* `Application.topologicalSort` (Kahn's algorithm) becomes a pure function
  over lists, with the JS `Map` (insertion ordered, string keyed) modelled
  by association lists / functions and the mutable in-degree map by a
  `String → Int` function (JS numbers may go negative in the decrement);
* effectful lifecycle code (`start`, `shutdown`) becomes pure functions that
  return an event trace plus the new application state; the arbitrary user
  code inside `provider.boot`, `provider.shutdown` and event subscribers is
  modelled by oracle functions `String → Except ε Unit` giving each call's
  outcome (throw or return);
* `Container` factories are arbitrary user code producing fresh objects, so
  a factory invocation is modelled as allocating a fresh instance identity
  from a counter, and the invocation log records how often each factory ran;
* `Emitter` listener functions are identified by tokens (`Nat`), the JS
  `Set` by an insertion-ordered duplicate-free list, and the `WeakSet` of
  single-fire listeners by a list of tokens.

Fields of `Application` that no claim concerns (the inherited DI bindings,
`_bootedCallbacks`, `_signalHandlers`) are omitted from the state record;
the wall-clock shutdown timer appears in the trace only as its start/clear
events.
-/

namespace Kernel

/-- A service provider as the orchestrator sees it: its unique `name` and
the list of provider names it declares as `dependencies`
(src/core/service_provider.ts contract used by `Application`). -/
structure Provider where
  name : String
  deps : List String
deriving DecidableEq, Repr

/-- The errors `Application.topologicalSort` can throw: duplicate provider
name, dependency on an unregistered provider, or a circular dependency
(carrying the names of the providers left out of the sorted order). -/
inductive SortError where
  | duplicateName (name : String)
  | unknownDep (provider dep : String)
  | circular (remaining : List String)
deriving DecidableEq, Repr

/-- First provider name that repeats, scanning `providers` in order with the
set of already-seen names (the `byName.has(p.name)` check in the first loop
of `topologicalSort`). -/
def firstDuplicate : List Provider → List String → Option String
  | [], _ => none
  | p :: rest, seen =>
    if p.name ∈ seen then some p.name
    else firstDuplicate rest (p.name :: seen)

/-- First (provider, dependency) pair whose dependency is not a registered
provider name (the `!byName.has(dep)` check in the edge-building loop). -/
def firstUnknownDep (names : List String) : List Provider → Option (String × String)
  | [] => none
  | p :: rest =>
    match p.deps.find? (fun d => ¬ names.contains d) with
    | some d => some (p.name, d)
    | none => firstUnknownDep names rest

/-- `dependents.get(dep)` after the edge-building loop: for each provider
`p` and each occurrence of `dep` in `p.deps`, `p.name` was pushed, in
provider order. -/
def dependentsOf (providers : List Provider) (dep : String) : List String :=
  providers.flatMap (fun p => (p.deps.filter (fun d => d = dep)).map (fun _ => p.name))

/-- The inner `for (const dependent of dependents.get(name)!)` loop of
Kahn's algorithm: decrement each dependent's in-degree, enqueueing it the
moment its degree reaches zero. Returns the updated in-degree map and
queue. -/
def processDeps (inDeg : String → Int) (queue : List String) :
    List String → (String → Int) × List String
  | [] => (inDeg, queue)
  | dependent :: rest =>
    let newDegree := inDeg dependent - 1
    let inDeg' := fun n => if n = dependent then newDegree else inDeg n
    let queue' := if newDegree = 0 then queue ++ [dependent] else queue
    processDeps inDeg' queue' rest

/-- The `while (queue.length > 0)` loop of Kahn's algorithm, on names:
shift a name off the queue, append it to the sorted order, and decrement
its dependents' in-degrees. `fuel` bounds the iteration count; callers pass
enough fuel that the queue always empties first (proved below for the
states the algorithm reaches). -/
def kahnLoop (dependents : String → List String) :
    Nat → (String → Int) → List String → List String → List String
  | 0, _, _, sorted => sorted
  | _ + 1, _, [], sorted => sorted
  | fuel + 1, inDeg, name :: rest, sorted =>
    let step := processDeps inDeg rest (dependents name)
    kahnLoop dependents fuel step.1 step.2 (sorted ++ [name])

/-- Initial in-degree map: each provider's declared-dependency count (the
`inDegree.set(p.name, …+1)` loop, run once per dependency occurrence),
`0` for unknown names. -/
def initInDeg (providers : List Provider) (n : String) : Int :=
  match providers.find? (fun p => p.name = n) with
  | some p => p.deps.length
  | none => 0

/-- Initial ready queue: names of zero-in-degree providers, in registration
order (JS `Map` iteration is insertion order). -/
def initQueue (providers : List Provider) : List String :=
  (providers.filter (fun p => initInDeg providers p.name = 0)).map (fun p => p.name)

/-- Enough fuel for `kahnLoop`: one iteration per provider plus one per
declared dependency edge. -/
def kahnFuel (providers : List Provider) : Nat :=
  providers.length + (providers.map (fun p => p.deps.length)).sum

/-- The name order produced by the Kahn sweep of `topologicalSort` (the
contents of the `sorted` array, by provider name). -/
def kahnSortedNames (providers : List Provider) : List String :=
  kahnLoop (dependentsOf providers) (kahnFuel providers)
    (initInDeg providers) (initQueue providers) []

/-- `Application.topologicalSort`: duplicate-name check, unknown-dependency
check, Kahn's-algorithm sweep, and the final circular-dependency check that
reports the providers left out of the sorted order. -/
def topologicalSort (providers : List Provider) : Except SortError (List Provider) :=
  match firstDuplicate providers [] with
  | some n => .error (.duplicateName n)
  | none =>
  match firstUnknownDep (providers.map (fun p => p.name)) providers with
  | some pd => .error (.unknownDep pd.1 pd.2)
  | none =>
    let sortedNames := kahnSortedNames providers
    let sorted := sortedNames.filterMap (fun n => providers.find? (fun p => p.name = n))
    if sorted.length = providers.length then .ok sorted
    else .error (.circular
      ((providers.filter (fun p => ¬ sortedNames.contains p.name)).map (fun p => p.name)))

/-! ## Application lifecycle (`Application.start` / `Application.shutdown`) -/

/-- Observable events of an `Application` run, in program order:
`provider.register(this)` calls, `provider.boot(this)` invocation and
successful completion, `provider.shutdown(this)` invocations, the
`console.error` log of a caught shutdown error, `Emitter.emit` of a
lifecycle event, and the shutdown deadline timer's `setTimeout` /
`clearTimeout`. -/
inductive Ev where
  | regCall (name : String)
  | bootStart (name : String)
  | bootEnd (name : String)
  | shutdownCall (name : String)
  | logError (name : String)
  | emitEv (event : String)
  | timerStart
  | timerClear
deriving DecidableEq, Repr

/-- The `Application` fields the claims concern: the added providers, the
`_bootedProviders` list (names, in boot-completion order), and the
`_booted` / `_shuttingDown` flags. -/
structure AppState where
  providers : List Provider
  bootedProviders : List String
  booted : Bool
  shuttingDown : Bool
deriving DecidableEq, Repr

/-- A freshly constructed application with the given providers added via
`use` (all other fields at their initializers). -/
def mkApp (providers : List Provider) : AppState :=
  { providers := providers, bootedProviders := [], booted := false, shuttingDown := false }

/-- The body of `shutdownProviders`' loop over the reversed booted list:
await each provider's `shutdown`, catching and logging its error. Produces
the trace of shutdown calls and logs. -/
def shutdownLoop (shutR : String → Except ε Unit) : List String → List Ev
  | [] => []
  | n :: rest =>
    (Ev.shutdownCall n :: match shutR n with
      | .ok _ => []
      | .error _ => [Ev.logError n]) ++ shutdownLoop shutR rest

/-- `Application.shutdownProviders`: shut down booted providers in reverse
order (errors caught and logged), then clear `_bootedProviders`. -/
def shutdownProvidersM (shutR : String → Except ε Unit) (s : AppState) :
    List Ev × AppState :=
  (shutdownLoop shutR s.bootedProviders.reverse, { s with bootedProviders := [] })

/-- The boot phase of `start` over the sorted providers: await each
provider's `boot` in order, appending it to `_bootedProviders` on success;
on the first throw, roll back via `shutdownProviders` and re-throw the
original error. Returns the trace, the state, and the propagated error, if
any. -/
def bootPhase (bootR shutR : String → Except ε Unit) :
    List Provider → AppState → List Ev × AppState × Option ε
  | [], s => ([], s, none)
  | p :: rest, s =>
    match bootR p.name with
    | .ok _ =>
      let s' := { s with bootedProviders := s.bootedProviders ++ [p.name] }
      let step := bootPhase bootR shutR rest s'
      (Ev.bootStart p.name :: Ev.bootEnd p.name :: step.1, step.2)
    | .error e =>
      let rb := shutdownProvidersM shutR s
      (Ev.bootStart p.name :: rb.1, rb.2, some e)

/-- `Application.start`: no-op if already booted; emit `app:starting`;
topologically sort the providers (propagating sort errors); register phase
in sorted order; boot phase in sorted order with rollback on failure; set
`_booted`; emit `app:booted`. Errors from provider `boot` and from emit
subscribers are the oracle results; `onBooted` callbacks and signal-handler
installation are omitted (no claim concerns them). Returns the event
trace, the final state, and the propagated error, if any. -/
def startApp (emitR bootR shutR : String → Except ε Unit) (s : AppState) :
    List Ev × AppState × Option (SortError ⊕ ε) :=
  if s.booted then ([], s, none)
  else
    match emitR "app:starting" with
    | .error e => ([Ev.emitEv "app:starting"], s, some (.inr e))
    | .ok _ =>
      match topologicalSort s.providers with
      | .error se => ([Ev.emitEv "app:starting"], s, some (.inl se))
      | .ok sorted =>
        let regTrace := sorted.map (fun p => Ev.regCall p.name)
        let bp := bootPhase bootR shutR sorted s
        match bp.2.2 with
        | some e =>
          (Ev.emitEv "app:starting" :: regTrace ++ bp.1, bp.2.1, some (.inr e))
        | none =>
          let s' := { bp.2.1 with booted := true }
          match emitR "app:booted" with
          | .error e =>
            (Ev.emitEv "app:starting" :: regTrace ++ bp.1 ++ [Ev.emitEv "app:booted"],
              s', some (.inr e))
          | .ok _ =>
            (Ev.emitEv "app:starting" :: regTrace ++ bp.1 ++ [Ev.emitEv "app:booted"],
              s', none)

/-- `Application.shutdown`: no-op if already shutting down; set
`_shuttingDown`; emit `app:shutdown` (a throw here propagates at once);
start the deadline timer; shut down booted providers in reverse; in the
`finally`, clear the timer and reset the `_booted` / `_shuttingDown`
flags; emit `app:terminated`. Signal-handler removal and the forced
`process.exit` on timeout are omitted. -/
def shutdownApp (emitR shutR : String → Except ε Unit) (s : AppState) :
    List Ev × AppState × Option ε :=
  if s.shuttingDown then ([], s, none)
  else
    let s1 := { s with shuttingDown := true }
    match emitR "app:shutdown" with
    | .error e => ([Ev.emitEv "app:shutdown"], s1, some e)
    | .ok _ =>
      let sp := shutdownProvidersM shutR s1
      let s3 := { sp.2 with booted := false, shuttingDown := false }
      let trace := Ev.emitEv "app:shutdown" :: Ev.timerStart :: sp.1 ++
        [Ev.timerClear, Ev.emitEv "app:terminated"]
      match emitR "app:terminated" with
      | .error e => (trace, s3, some e)
      | .ok _ => (trace, s3, none)

/-- Names of the providers whose `boot` was invoked, read off a trace. -/
def bootStarts : List Ev → List String
  | [] => []
  | Ev.bootStart n :: tr => n :: bootStarts tr
  | _ :: tr => bootStarts tr

/-- Names of the providers whose `boot` completed successfully, read off a
trace, in completion order. -/
def bootEnds : List Ev → List String
  | [] => []
  | Ev.bootEnd n :: tr => n :: bootEnds tr
  | _ :: tr => bootEnds tr

/-- Names of the providers whose `shutdown` was invoked, read off a trace,
in invocation order. -/
def shutdownCalls : List Ev → List String
  | [] => []
  | Ev.shutdownCall n :: tr => n :: shutdownCalls tr
  | _ :: tr => shutdownCalls tr

/-! ## Container (`Container.register` / `singleton` / `resolve`) -/

/-- A `Container`'s state. Keys are strings (class-constructor keys behave
identically). `factories` maps a key to its binding's `singleton` flag —
the factory itself is arbitrary user code, modelled as allocating a fresh
instance identity from `nextId` each time it runs. `instances` is the
singleton cache. `factoryRuns` logs, per invocation, the key whose factory
executed. -/
structure ContainerState where
  factories : List (String × Bool)
  instances : List (String × Nat)
  nextId : Nat
  factoryRuns : List String
deriving DecidableEq, Repr

/-- A container with no bindings. -/
def emptyContainer : ContainerState :=
  { factories := [], instances := [], nextId := 0, factoryRuns := [] }

/-- Association-list update with JS `Map.set` semantics: overwrite in place
if the key exists, else append. -/
def mapSet (k : String) (v : α) : List (String × α) → List (String × α)
  | [] => [(k, v)]
  | (k', v') :: rest => if k' = k then (k, v) :: rest else (k', v') :: mapSet k v rest

/-- Association-list lookup (JS `Map.get`). -/
def mapGet (k : String) : List (String × α) → Option α
  | [] => none
  | (k', v) :: rest => if k' = k then some v else mapGet k rest

/-- `Container.register(key, factory)`: bind with `singleton: false`. -/
def registerBinding (key : String) (s : ContainerState) : ContainerState :=
  { s with factories := mapSet key false s.factories }

/-- `Container.singleton(key, factory)`: bind with `singleton: true`. The
factory does not run at registration time. -/
def singletonBinding (key : String) (s : ContainerState) : ContainerState :=
  { s with factories := mapSet key true s.factories }

/-- `Container.resolve(key)`: not-registered error when the key has no
binding; for a singleton binding, return the cached instance or run the
factory once and cache its result; for a transient binding, run the
factory afresh. Returns the instance identity and the new state. -/
def resolve (key : String) (s : ContainerState) :
    Except String (Nat × ContainerState) :=
  match mapGet key s.factories with
  | none => .error ("Service \x22" ++ key ++ "\x22 is not registered")
  | some isSingleton =>
    if isSingleton then
      match mapGet key s.instances with
      | some v => .ok (v, s)
      | none =>
        .ok (s.nextId,
          { s with instances := mapSet key s.nextId s.instances,
                   nextId := s.nextId + 1,
                   factoryRuns := s.factoryRuns ++ [key] })
    else
      .ok (s.nextId,
        { s with nextId := s.nextId + 1, factoryRuns := s.factoryRuns ++ [key] })

/-- Run a sequence of `resolve` calls, collecting each call's result
(`none` for a not-registered error). -/
def resolveSeq : List String → ContainerState → List (String × Option Nat) × ContainerState
  | [], s => ([], s)
  | k :: rest, s =>
    match resolve k s with
    | .error _ =>
      let step := resolveSeq rest s
      ((k, none) :: step.1, step.2)
    | .ok (v, s') =>
      let step := resolveSeq rest s'
      ((k, some v) :: step.1, step.2)

/-! ## Event bus (`Emitter`) -/

/-- The `Emitter`'s static state: `_listeners`, a map from event name to an
insertion-ordered duplicate-free list of listener tokens (the JS `Set`),
and `_once`, the set of tokens flagged single-fire (the JS `WeakSet`,
keyed by the listener function itself, not by the (event, listener)
pair). -/
structure EmitterState where
  listeners : List (String × List Nat)
  onceSet : List Nat
deriving DecidableEq, Repr

/-- The emitter with no listeners. -/
def emptyEmitter : EmitterState := { listeners := [], onceSet := [] }

/-- `Set.add`: append the token if absent. -/
def setAdd (f : Nat) (l : List Nat) : List Nat := if f ∈ l then l else l ++ [f]

/-- `Emitter.on(event, listener)`: create the event's set if missing, then
add the listener. -/
def onE (event : String) (f : Nat) (s : EmitterState) : EmitterState :=
  match mapGet event s.listeners with
  | none => { s with listeners := mapSet event [f] s.listeners }
  | some set => { s with listeners := mapSet event (setAdd f set) s.listeners }

/-- `Emitter.once(event, listener)`: add the listener to `_once`, then
register it exactly as `on` would. -/
def onceE (event : String) (f : Nat) (s : EmitterState) : EmitterState :=
  onE event f { s with onceSet := setAdd f s.onceSet }

/-- Association-list delete (JS `Map.delete`; keys are unique in a JS
`Map`, so removing every entry with the key is the same operation). -/
def mapDel (k : String) : List (String × α) → List (String × α)
  | [] => []
  | kv :: rest => if kv.1 = k then mapDel k rest else kv :: mapDel k rest

/-- `Emitter.off(event, listener)`: remove the listener from the event's
set; delete the event's entry if the set becomes empty. `_once` is not
touched. -/
def offE (event : String) (f : Nat) (s : EmitterState) : EmitterState :=
  match mapGet event s.listeners with
  | none => s
  | some set =>
    let set' := set.filter (fun g => g ≠ f)
    if set' = [] then { s with listeners := mapDel event s.listeners }
    else { s with listeners := mapSet event set' s.listeners }

/-- `Emitter.listenerCount(event)`. -/
def listenerCount (event : String) (s : EmitterState) : Nat :=
  match mapGet event s.listeners with
  | none => 0
  | some set => set.length

/-- The synchronous head of `Emitter.emit(event)`: snapshot the current
subscriber list, then — before invoking anything — remove every
snapshotted single-fire listener from the live set and from `_once`,
deleting the event's entry if its set becomes empty. Returns the snapshot
(the listeners that will be invoked) and the updated state. With no
subscribers the snapshot is empty and the state unchanged. -/
def emitPrepare (event : String) (s : EmitterState) : List Nat × EmitterState :=
  match mapGet event s.listeners with
  | none => ([], s)
  | some set =>
    if set = [] then ([], s)
    else
      let snapshot := set
      let newSet := set.filter (fun f => f ∉ s.onceSet)
      let newOnce := s.onceSet.filter (fun f => f ∉ snapshot)
      let listeners' :=
        if newSet = [] then mapDel event s.listeners
        else mapSet event newSet s.listeners
      (snapshot, { listeners := listeners', onceSet := newOnce })

/-- The settle-all tail of `Emitter.emit`: every snapshotted listener is
invoked (a synchronous throw is converted to a rejection, so siblings
still run); after all settle, the result is the first rejection in
snapshot order, `none` when all succeeded. `run` gives each listener's
outcome. -/
def emitResult (run : Nat → Except ε Unit) (snapshot : List Nat) : Option ε :=
  (snapshot.filterMap (fun f =>
    match run f with
    | .error e => some e
    | .ok _ => none)).head?

/-- `Emitter.emit(event)`: the invoked listeners, the new listener state,
and the error re-thrown after all listeners settle (if any). -/
def emitE (run : Nat → Except ε Unit) (event : String) (s : EmitterState) :
    List Nat × EmitterState × Option ε :=
  let prep := emitPrepare event s
  (prep.1, prep.2, emitResult run prep.1)

/-! ## Notions used to state and prove the claims -/

/-- The dependency edge relation of a provider set: `DepEdge P d n` holds
when the provider named `n` declares `d` as a dependency. -/
def DepEdge (providers : List Provider) (d n : String) : Prop :=
  ∃ p ∈ providers, p.name = n ∧ d ∈ p.deps

/-- The provider dependency graph is acyclic: the dependency edge relation
is well-founded (for a finite graph this is exactly the absence of
dependency cycles). -/
def Acyclic (providers : List Provider) : Prop :=
  WellFounded (DepEdge providers)

/-- Declared dependencies of the provider with the given name (`[]` when no
provider has it). -/
def depsOfName (providers : List Provider) (n : String) : List String :=
  match providers.find? (fun p => p.name = n) with
  | some p => p.deps
  | none => []

/-- Every name in the list has all of the declared dependencies of its
provider among `seen` or among the names occurring earlier in the list:
the defining property of a topological order, read left to right. -/
def DepsSeenFirst (providers : List Provider) : List String → List String → Prop
  | _, [] => True
  | seen, n :: rest =>
      (∀ p ∈ providers, p.name = n → ∀ d ∈ p.deps, d ∈ seen) ∧
      DepsSeenFirst providers (n :: seen) rest

/-- Number of occurrences of a name in a list. -/
def countS (x : String) : List String → Nat
  | [] => 0
  | y :: rest => (if y = x then 1 else 0) + countS x rest

/-- Number of dependency occurrences in `deps` whose target is not yet in
`sorted` — the quantity the mutable in-degree map tracks. -/
def countOutside (sorted : List String) : List String → Nat
  | [] => 0
  | d :: rest => (if d ∈ sorted then 0 else 1) + countOutside sorted rest

/-- Invariant of the Kahn sweep relating the in-degree map, the ready
queue and the sorted prefix: the sorted and queued names are distinct
provider names; every provider's in-degree is the number of its declared
dependency occurrences not yet sorted; the queue holds exactly the
unsorted providers all of whose dependencies are sorted; and the sorted
prefix lists each provider after all of its dependencies. -/
def KahnInv (providers : List Provider) (inDeg : String → Int)
    (queue sorted : List String) : Prop :=
  (sorted ++ queue).Nodup ∧
  (∀ n ∈ sorted ++ queue, n ∈ providers.map (fun p => p.name)) ∧
  (∀ p ∈ providers, inDeg p.name = (countOutside sorted p.deps : Int)) ∧
  (∀ n, n ∈ queue ↔ n ∈ providers.map (fun p => p.name) ∧ n ∉ sorted ∧
      ∀ d ∈ depsOfName providers n, d ∈ sorted) ∧
  DepsSeenFirst providers [] sorted

/-- Invariant tying a singleton binding's cache to its factory-invocation
count: the key is bound singleton, its cache holds `cache`, and its
factory has run exactly once if cached, never otherwise. -/
def SingletonInv (k : String) (s : ContainerState) (cache : Option Nat) : Prop :=
  mapGet k s.factories = some true ∧ mapGet k s.instances = cache ∧
  s.factoryRuns.count k = (if cache.isSome then 1 else 0)

/-- The register-phase trace over a sorted provider list. -/
def regEvents (l : List Provider) : List Ev :=
  l.map (fun p => Ev.regCall p.name)

/-- The boot-phase trace over providers that all boot successfully: each
boot is started and awaited to completion before the next begins. -/
def bootEvents (l : List Provider) : List Ev :=
  l.flatMap (fun p => [Ev.bootStart p.name, Ev.bootEnd p.name])

/-! ## Concrete instances used as witnesses -/

/-- The config provider of the spec's worked example. -/
def cfgP : Provider := ⟨"config", []⟩

/-- The database provider of the spec's worked example. -/
def dbP : Provider := ⟨"database", ["config"]⟩

/-- The auth provider of the spec's worked example. -/
def authP : Provider := ⟨"auth", ["database"]⟩

/-- The worked example's providers, added in the order auth, database,
config. -/
def demoProviders : List Provider := [authP, dbP, cfgP]

/-- Provider "a" of the spec's two-provider cycle (depends on "b"). -/
def cycleA : Provider := ⟨"a", ["b"]⟩

/-- Provider "b" of the spec's two-provider cycle (depends on "a"). -/
def cycleB : Provider := ⟨"b", ["a"]⟩

/-- The spec's two-provider dependency cycle. -/
def cycleProviders : List Provider := [cycleA, cycleB]

/-- Oracle where every call returns normally. -/
def allOk : String → Except String Unit := fun _ => .ok ()

/-- Oracle where exactly `Database.boot()` (or shutdown) throws. -/
def dbThrows : String → Except String Unit :=
  fun n => if n = "database" then .error "db boom" else .ok ()

/-- Listener-outcome oracle where listener 1 throws "e1" and the others
succeed. -/
def run6 : Nat → Except String Unit :=
  fun f => if f = 1 then .error "e1" else .ok ()

/-- Emit-subscriber oracle where exactly the `app:shutdown` subscriber
throws. -/
def shutdownEmitThrows : String → Except String Unit :=
  fun n => if n = "app:shutdown" then .error "listener boom" else .ok ()

end Kernel

namespace Kernel

/-! ## Association-list (JS `Map`) lemmas -/

theorem mapGet_mapSet_self (k : String) (v : α) (m : List (String × α)) :
    mapGet k (mapSet k v m) = some v := by
  induction m with
  | nil => simp [mapSet, mapGet]
  | cons kv rest ih =>
    by_cases h : kv.1 = k
    · simp [mapSet, mapGet, h]
    · simp [mapSet, mapGet, h, ih]

theorem mapGet_mapSet_ne (k k' : String) (hne : k' ≠ k) (v : α) (m : List (String × α)) :
    mapGet k (mapSet k' v m) = mapGet k m := by
  induction m with
  | nil => simp [mapSet, mapGet, hne]
  | cons kv rest ih =>
    by_cases h : kv.1 = k'
    · have h2 : ¬ kv.1 = k := by rw [h]; exact hne
      simp [mapSet, mapGet, h, h2, hne]
    · by_cases h2 : kv.1 = k <;> simp [mapSet, mapGet, h, h2, ih, Ne.symm hne]

theorem mapGet_mapDel_self (k : String) (m : List (String × α)) :
    mapGet k (mapDel k m) = none := by
  induction m with
  | nil => simp [mapDel, mapGet]
  | cons kv rest ih =>
    by_cases h : kv.1 = k <;> simp [mapDel, mapGet, h, ih]

theorem mapGet_mapDel_ne (k k' : String) (hne : k' ≠ k) (m : List (String × α)) :
    mapGet k (mapDel k' m) = mapGet k m := by
  induction m with
  | nil => simp [mapDel, mapGet]
  | cons kv rest ih =>
    by_cases h : kv.1 = k'
    · have h2 : ¬ kv.1 = k := by rw [h]; exact hne
      simp [mapDel, mapGet, h, h2, ih, hne, Ne.symm hne]
    · by_cases h2 : kv.1 = k <;> simp [mapDel, mapGet, h, h2, ih, hne, Ne.symm hne]

/-! ## Emitter lemmas -/

theorem mem_setAdd_self (f : Nat) (l : List Nat) : f ∈ setAdd f l := by
  unfold setAdd
  split <;> simp_all

theorem onE_onceSet (e : String) (f : Nat) (s : EmitterState) :
    (onE e f s).onceSet = s.onceSet := by
  unfold onE
  cases mapGet e s.listeners <;> simp

theorem offE_onceSet (e : String) (f : Nat) (s : EmitterState) :
    (offE e f s).onceSet = s.onceSet := by
  unfold offE
  cases mapGet e s.listeners with
  | none => rfl
  | some set =>
    dsimp only
    split <;> rfl

theorem onceE_onceSet (e : String) (f : Nat) (s : EmitterState) :
    (onceE e f s).onceSet = setAdd f s.onceSet := by
  unfold onceE
  rw [onE_onceSet]

theorem onE_get_self (e : String) (f : Nat) (s : EmitterState) :
    ∃ set, mapGet e (onE e f s).listeners = some set ∧ f ∈ set := by
  unfold onE
  cases h : mapGet e s.listeners with
  | none => exact ⟨[f], by simp [mapGet_mapSet_self], by simp⟩
  | some set => exact ⟨setAdd f set, by simp [mapGet_mapSet_self], mem_setAdd_self f set⟩

theorem onE_get_ne (e e' : String) (hne : e' ≠ e) (f : Nat) (s : EmitterState) :
    mapGet e' (onE e f s).listeners = mapGet e' s.listeners := by
  unfold onE
  cases h : mapGet e s.listeners <;> simp [mapGet_mapSet_ne e' e (Ne.symm hne), h]

theorem emitPrepare_fst (e : String) (s : EmitterState) :
    (emitPrepare e s).1 = (mapGet e s.listeners).getD [] := by
  unfold emitPrepare
  cases h : mapGet e s.listeners with
  | none => rfl
  | some set =>
    dsimp only
    split
    · simp [*]
    · rfl

theorem emitPrepare_not_mem_of_once (e : String) (f : Nat) (s : EmitterState)
    (hf : f ∈ s.onceSet) :
    ∀ set, mapGet e (emitPrepare e s).2.listeners = some set → f ∉ set := by
  intro set hset
  unfold emitPrepare at hset
  cases h : mapGet e s.listeners with
  | none =>
    rw [h] at hset
    dsimp only at hset
    rw [h] at hset
    cases hset
  | some set0 =>
    rw [h] at hset
    dsimp only at hset
    split at hset
    · rw [h] at hset
      injection hset with hset
      subst hset
      rename_i hempty
      rw [hempty]
      simp
    · split at hset
      · rw [mapGet_mapDel_self] at hset
        cases hset
      · rw [mapGet_mapSet_self] at hset
        injection hset with hset
        subst hset
        intro hmem
        have := List.mem_filter.1 hmem
        simp at this
        exact this.2 hf

theorem emitPrepare_onceSet_removes (e : String) (f : Nat) (s : EmitterState)
    (hf : f ∈ (mapGet e s.listeners).getD []) :
    f ∉ (emitPrepare e s).2.onceSet := by
  unfold emitPrepare
  cases h : mapGet e s.listeners with
  | none => rw [h] at hf; cases hf
  | some set0 =>
    rw [h] at hf
    dsimp only at hf ⊢
    split
    · rename_i hempty
      rw [hempty] at hf
      cases hf
    · intro hmem
      have := List.mem_filter.1 hmem
      simp at this
      exact this.2 hf

theorem emitPrepare_listeners_ne (e e' : String) (hne : e' ≠ e) (s : EmitterState) :
    mapGet e' (emitPrepare e s).2.listeners = mapGet e' s.listeners := by
  unfold emitPrepare
  cases h : mapGet e s.listeners with
  | none => rfl
  | some set0 =>
    dsimp only
    split
    · rfl
    · split
      · exact mapGet_mapDel_ne e' e (Ne.symm hne) s.listeners
      · exact mapGet_mapSet_ne e' e (Ne.symm hne) _ s.listeners

theorem emitPrepare_keeps_listener (e : String) (f : Nat) (s : EmitterState)
    (hf : f ∈ (mapGet e s.listeners).getD []) (honce : f ∉ s.onceSet) :
    ∃ set, mapGet e (emitPrepare e s).2.listeners = some set ∧ f ∈ set := by
  unfold emitPrepare
  cases h : mapGet e s.listeners with
  | none => rw [h] at hf; cases hf
  | some set0 =>
    rw [h] at hf
    rw [Option.getD_some] at hf
    dsimp only
    have hmem : f ∈ set0.filter (fun g => decide (g ∉ s.onceSet)) := by
      simp [List.mem_filter, hf, honce]
    split
    · rename_i hempty
      rw [hempty] at hf
      cases hf
    · split
      · rename_i hemp
        rw [hemp] at hmem
        cases hmem
      · exact ⟨_, mapGet_mapSet_self _ _ _, hmem⟩

theorem emitResult_none_iff (run : Nat → Except ε Unit) (l : List Nat) :
    emitResult run l = none ↔ ∀ f ∈ l, run f = .ok () := by
  unfold emitResult
  rw [List.head?_eq_none_iff, List.filterMap_eq_nil_iff]
  constructor
  · intro h f hf
    have := h f hf
    cases hr : run f with
    | ok u => cases u; rfl
    | error e => rw [hr] at this; cases this
  · intro h f hf
    rw [h f hf]

theorem emitResult_first_error (run : Nat → Except ε Unit) (l₁ : List Nat) (f : Nat)
    (l₂ : List Nat) (e : ε) (h₁ : ∀ g ∈ l₁, run g = .ok ()) (he : run f = .error e) :
    emitResult run (l₁ ++ f :: l₂) = some e := by
  induction l₁ with
  | nil => simp [emitResult, he]
  | cons g rest ih =>
    have hg : run g = .ok () := h₁ g (by simp)
    have := ih (fun x hx => h₁ x (by simp [hx]))
    simpa [emitResult, hg] using this

/-- C6: `emit(event)` with zero subscribers returns immediately without
error; with subscribers, the invoked listeners are exactly the snapshot of
the current subscriber set, independently of which listeners throw (settle
all: a throwing subscriber never prevents siblings from running); the call
succeeds iff every snapshotted subscriber succeeded, and otherwise
re-throws exactly the first failure in original subscriber registration
order. -/
theorem emit_settles_all_and_rethrows_first {ε : Type} (run run' : Nat → Except ε Unit)
    (event : String) (s : EmitterState) :
    (listenerCount event s = 0 → emitE run event s = ([], s, none)) ∧
    (emitE run event s).1 = (mapGet event s.listeners).getD [] ∧
    (emitE run event s).1 = (emitE run' event s).1 ∧
    ((emitE run event s).2.2 = none ↔ ∀ f ∈ (emitE run event s).1, run f = .ok ()) ∧
    (∀ l₁ f l₂ e, (emitE run event s).1 = l₁ ++ f :: l₂ →
      (∀ g ∈ l₁, run g = .ok ()) → run f = .error e →
      (emitE run event s).2.2 = some e) := by
  refine ⟨?_, ?_, ?_, ?_, ?_⟩
  · intro hzero
    unfold listenerCount at hzero
    unfold emitE emitPrepare
    cases h : mapGet event s.listeners with
    | none => rfl
    | some set =>
      rw [h] at hzero
      have hs : set = [] := List.eq_nil_of_length_eq_zero hzero
      simp [hs, emitResult]
  · exact emitPrepare_fst event s
  · rfl
  · exact emitResult_none_iff run (emitPrepare event s).1
  · intro l₁ f l₂ e hsplit hok herr
    show emitResult run (emitPrepare event s).1 = some e
    have hsplit' : (emitPrepare event s).1 = l₁ ++ f :: l₂ := hsplit
    rw [hsplit']
    exact emitResult_first_error run l₁ f l₂ e hok herr

/-- C6 witness: with no subscribers `emit` returns without error; with
listener 1 (throws "e1") registered before listener 2 (succeeds), both are
invoked and the call rejects with "e1". -/
theorem emit_settles_all_and_rethrows_first_witness :
    emitE run6 "user.registered" emptyEmitter = ([], emptyEmitter, none) ∧
    (emitE run6 "user.registered"
        (onE "user.registered" 2 (onE "user.registered" 1 emptyEmitter))).1 = [1, 2] ∧
    (emitE run6 "user.registered"
        (onE "user.registered" 2 (onE "user.registered" 1 emptyEmitter))).2.2 = some "e1" := by
  refine ⟨?_, ?_, ?_⟩
  · exact (emit_settles_all_and_rethrows_first run6 run6 "user.registered" emptyEmitter).1 rfl
  · rfl
  · exact (emit_settles_all_and_rethrows_first run6 run6 "user.registered"
      (onE "user.registered" 2 (onE "user.registered" 1 emptyEmitter))).2.2.2.2
      [] 1 [2] "e1" rfl (by intro g hg; cases hg) rfl

/-- C7: a listener registered with `once(event, fn)` is in the snapshot of
the next `emit(event)` (so it fires), is removed from the live subscriber
set before any subscriber is invoked (so a re-entrant emit from within a
firing listener, which runs against the post-removal state, cannot invoke
it again), any emit on a state whose live set does not contain the
listener does not invoke it, and in particular a second `emit(event)` does
not invoke it. -/
theorem once_listener_fires_exactly_once (s : EmitterState) (event : String) (f : Nat) :
    f ∈ (emitPrepare event (onceE event f s)).1 ∧
    (∀ set, mapGet event (emitPrepare event (onceE event f s)).2.listeners = some set →
      f ∉ set) ∧
    (∀ t : EmitterState,
      (∀ set, mapGet event t.listeners = some set → f ∉ set) →
      f ∉ (emitPrepare event t).1) ∧
    f ∉ (emitPrepare event (emitPrepare event (onceE event f s)).2).1 := by
  have honce : f ∈ (onceE event f s).onceSet := by
    rw [onceE_onceSet]
    exact mem_setAdd_self f s.onceSet
  have hlive : ∃ set, mapGet event (onceE event f s).listeners = some set ∧ f ∈ set := by
    unfold onceE
    exact onE_get_self event f _
  have hnotmem : ∀ t : EmitterState,
      (∀ set, mapGet event t.listeners = some set → f ∉ set) →
      f ∉ (emitPrepare event t).1 := by
    intro t ht
    rw [emitPrepare_fst]
    cases h : mapGet event t.listeners with
    | none => simp
    | some set => simpa using ht set h
  refine ⟨?_, ?_, hnotmem, ?_⟩
  · rw [emitPrepare_fst]
    obtain ⟨set, hget, hmem⟩ := hlive
    rw [hget]
    simpa using hmem
  · exact emitPrepare_not_mem_of_once event f (onceE event f s) honce
  · exact hnotmem _ (emitPrepare_not_mem_of_once event f (onceE event f s) honce)

/-- C7 witness: at the concrete event "user.registered" with listener 3,
the once-listener is in the first emit's snapshot and not in the second
emit's snapshot. -/
theorem once_listener_fires_exactly_once_witness :
    3 ∈ (emitPrepare "user.registered" (onceE "user.registered" 3 emptyEmitter)).1 ∧
    3 ∉ (emitPrepare "user.registered"
      (emitPrepare "user.registered" (onceE "user.registered" 3 emptyEmitter)).2).1 := by
  have h := once_listener_fires_exactly_once emptyEmitter "user.registered" 3
  exact ⟨h.1, h.2.2.2⟩

/-! ## Lifecycle phase lemmas -/

theorem bootStarts_append (t₁ t₂ : List Ev) :
    bootStarts (t₁ ++ t₂) = bootStarts t₁ ++ bootStarts t₂ := by
  induction t₁ with
  | nil => rfl
  | cons ev rest ih => cases ev <;> simp [bootStarts, ih]

theorem bootEnds_append (t₁ t₂ : List Ev) :
    bootEnds (t₁ ++ t₂) = bootEnds t₁ ++ bootEnds t₂ := by
  induction t₁ with
  | nil => rfl
  | cons ev rest ih => cases ev <;> simp [bootEnds, ih]

theorem shutdownCalls_append (t₁ t₂ : List Ev) :
    shutdownCalls (t₁ ++ t₂) = shutdownCalls t₁ ++ shutdownCalls t₂ := by
  induction t₁ with
  | nil => rfl
  | cons ev rest ih => cases ev <;> simp [shutdownCalls, ih]

theorem bootStarts_emitEv_cons (e : String) (tr : List Ev) :
    bootStarts (Ev.emitEv e :: tr) = bootStarts tr := rfl

theorem bootStarts_bootStart_cons (n : String) (tr : List Ev) :
    bootStarts (Ev.bootStart n :: tr) = n :: bootStarts tr := rfl

theorem bootEnds_emitEv_cons (e : String) (tr : List Ev) :
    bootEnds (Ev.emitEv e :: tr) = bootEnds tr := rfl

theorem bootEnds_bootStart_cons (n : String) (tr : List Ev) :
    bootEnds (Ev.bootStart n :: tr) = bootEnds tr := rfl

theorem shutdownCalls_emitEv_cons (e : String) (tr : List Ev) :
    shutdownCalls (Ev.emitEv e :: tr) = shutdownCalls tr := rfl

theorem shutdownCalls_bootStart_cons (n : String) (tr : List Ev) :
    shutdownCalls (Ev.bootStart n :: tr) = shutdownCalls tr := rfl

theorem shutdownCalls_timerStart_cons (tr : List Ev) :
    shutdownCalls (Ev.timerStart :: tr) = shutdownCalls tr := rfl

theorem shutdownCalls_timer_tail (e : String) :
    shutdownCalls [Ev.timerClear, Ev.emitEv e] = [] := rfl

theorem bootStarts_bootEvents (l : List Provider) :
    bootStarts (bootEvents l) = l.map (fun p => p.name) := by
  induction l with
  | nil => rfl
  | cons p rest ih => simp [bootEvents, bootStarts, List.flatMap_cons] at ih ⊢; exact ih

theorem bootEnds_bootEvents (l : List Provider) :
    bootEnds (bootEvents l) = l.map (fun p => p.name) := by
  induction l with
  | nil => rfl
  | cons p rest ih => simp [bootEvents, bootEnds, List.flatMap_cons] at ih ⊢; exact ih

theorem shutdownCalls_bootEvents (l : List Provider) :
    shutdownCalls (bootEvents l) = [] := by
  induction l with
  | nil => rfl
  | cons p rest ih => simp [bootEvents, shutdownCalls, List.flatMap_cons] at ih ⊢; exact ih

theorem bootStarts_regEvents (l : List Provider) :
    bootStarts (regEvents l) = [] := by
  induction l with
  | nil => rfl
  | cons p rest ih => simpa [regEvents, bootStarts] using ih

theorem bootEnds_regEvents (l : List Provider) :
    bootEnds (regEvents l) = [] := by
  induction l with
  | nil => rfl
  | cons p rest ih => simpa [regEvents, bootEnds] using ih

theorem shutdownCalls_regEvents (l : List Provider) :
    shutdownCalls (regEvents l) = [] := by
  induction l with
  | nil => rfl
  | cons p rest ih => simpa [regEvents, shutdownCalls] using ih

theorem logError_not_mem_regEvents (n : String) (l : List Provider) :
    Ev.logError n ∉ regEvents l := by
  simp [regEvents]

theorem logError_not_mem_bootEvents (n : String) (l : List Provider) :
    Ev.logError n ∉ bootEvents l := by
  simp [bootEvents]

theorem mkApp_providers (providers : List Provider) :
    (mkApp providers).providers = providers := rfl

theorem mkApp_booted (providers : List Provider) :
    (mkApp providers).booted = false := rfl

theorem mkApp_bootedProviders (providers : List Provider) :
    (mkApp providers).bootedProviders = [] := rfl

theorem mkApp_shuttingDown (providers : List Provider) :
    (mkApp providers).shuttingDown = false := rfl

theorem shutdownLoop_cons_ok {ε : Type} (shutR : String → Except ε Unit) (n : String)
    (rest : List String) (u : Unit) (h : shutR n = .ok u) :
    shutdownLoop shutR (n :: rest) = Ev.shutdownCall n :: shutdownLoop shutR rest := by
  simp [shutdownLoop, h]

theorem shutdownLoop_cons_err {ε : Type} (shutR : String → Except ε Unit) (n : String)
    (rest : List String) (e : ε) (h : shutR n = .error e) :
    shutdownLoop shutR (n :: rest) =
      Ev.shutdownCall n :: Ev.logError n :: shutdownLoop shutR rest := by
  simp [shutdownLoop, h]

theorem shutdownLoop_calls {ε : Type} (shutR : String → Except ε Unit) (ns : List String) :
    shutdownCalls (shutdownLoop shutR ns) = ns := by
  induction ns with
  | nil => rfl
  | cons n rest ih =>
    cases h : shutR n with
    | ok u => rw [shutdownLoop_cons_ok shutR n rest u h]; simp [shutdownCalls, ih]
    | error e => rw [shutdownLoop_cons_err shutR n rest e h]; simp [shutdownCalls, ih]

theorem shutdownLoop_no_bootStarts {ε : Type} (shutR : String → Except ε Unit)
    (ns : List String) : bootStarts (shutdownLoop shutR ns) = [] := by
  induction ns with
  | nil => rfl
  | cons n rest ih =>
    cases h : shutR n with
    | ok u => rw [shutdownLoop_cons_ok shutR n rest u h]; simpa [bootStarts] using ih
    | error e => rw [shutdownLoop_cons_err shutR n rest e h]; simpa [bootStarts] using ih

theorem shutdownLoop_no_bootEnds {ε : Type} (shutR : String → Except ε Unit)
    (ns : List String) : bootEnds (shutdownLoop shutR ns) = [] := by
  induction ns with
  | nil => rfl
  | cons n rest ih =>
    cases h : shutR n with
    | ok u => rw [shutdownLoop_cons_ok shutR n rest u h]; simpa [bootEnds] using ih
    | error e => rw [shutdownLoop_cons_err shutR n rest e h]; simpa [bootEnds] using ih

theorem shutdownLoop_logs {ε : Type} (shutR : String → Except ε Unit) (ns : List String)
    (n : String) :
    Ev.logError n ∈ shutdownLoop shutR ns ↔ n ∈ ns ∧ ∃ e, shutR n = .error e := by
  induction ns with
  | nil => simp [shutdownLoop]
  | cons m rest ih =>
    cases h : shutR m with
    | ok u =>
      rw [shutdownLoop_cons_ok shutR m rest u h, List.mem_cons, ih]
      constructor
      · rintro (hcon | ⟨hmem, he⟩)
        · cases hcon
        · exact ⟨List.mem_cons_of_mem m hmem, he⟩
      · rintro ⟨hmem, he⟩
        rcases List.mem_cons.1 hmem with hm | hmem2
        · subst hm
          obtain ⟨e2, he2⟩ := he
          rw [h] at he2
          cases he2
        · exact Or.inr ⟨hmem2, he⟩
    | error e =>
      rw [shutdownLoop_cons_err shutR m rest e h, List.mem_cons, List.mem_cons, ih]
      constructor
      · rintro (hcon | hlog | ⟨hmem, he⟩)
        · cases hcon
        · injection hlog with hm
          subst hm
          exact ⟨List.mem_cons_self _ _, e, h⟩
        · exact ⟨List.mem_cons_of_mem m hmem, he⟩
      · rintro ⟨hmem, he⟩
        rcases List.mem_cons.1 hmem with hm | hmem2
        · subst hm
          exact Or.inr (Or.inl rfl)
        · exact Or.inr (Or.inr ⟨hmem2, he⟩)

theorem bootPhase_ok {ε : Type} (bootR shutR : String → Except ε Unit) (l : List Provider) :
    ∀ s : AppState, (∀ p ∈ l, bootR p.name = .ok ()) →
    bootPhase bootR shutR l s =
      (bootEvents l,
       { s with bootedProviders := s.bootedProviders ++ l.map (fun p => p.name) }, none) := by
  induction l with
  | nil =>
    intro s _
    simp [bootPhase, bootEvents]
  | cons p rest ih =>
    intro s hok
    have hp : bootR p.name = .ok () := hok p (by simp)
    have hrest := ih { s with bootedProviders := s.bootedProviders ++ [p.name] }
      (fun q hq => hok q (by simp [hq]))
    simp only [bootPhase, hp, hrest, bootEvents, List.flatMap_cons]
    simp [List.append_assoc]

theorem bootPhase_fail {ε : Type} (bootR shutR : String → Except ε Unit)
    (l₁ : List Provider) (p : Provider) (l₂ : List Provider) (e : ε) :
    ∀ s : AppState, (∀ q ∈ l₁, bootR q.name = .ok ()) → bootR p.name = .error e →
    bootPhase bootR shutR (l₁ ++ p :: l₂) s =
      (bootEvents l₁ ++ Ev.bootStart p.name ::
         shutdownLoop shutR ((s.bootedProviders ++ l₁.map (fun q => q.name)).reverse),
       { s with bootedProviders := [] }, some e) := by
  induction l₁ with
  | nil =>
    intro s _ hfail
    simp [bootPhase, hfail, shutdownProvidersM, bootEvents]
  | cons q rest ih =>
    intro s hok hfail
    have hq : bootR q.name = .ok () := hok q (by simp)
    have hrest := ih { s with bootedProviders := s.bootedProviders ++ [q.name] }
      (fun r hr => hok r (by simp [hr])) hfail
    show bootPhase bootR shutR (q :: (rest ++ p :: l₂)) s = _
    rw [show bootPhase bootR shutR (q :: (rest ++ p :: l₂)) s =
        (Ev.bootStart q.name :: Ev.bootEnd q.name ::
          (bootPhase bootR shutR (rest ++ p :: l₂)
            { s with bootedProviders := s.bootedProviders ++ [q.name] }).1,
         (bootPhase bootR shutR (rest ++ p :: l₂)
            { s with bootedProviders := s.bootedProviders ++ [q.name] }).2)
      from by simp [bootPhase, hq]]
    rw [hrest]
    simp [bootEvents, List.append_assoc]

theorem firstFailureSplit {ε : Type} (bootR : String → Except ε Unit) (l : List Provider) :
    (∀ p ∈ l, bootR p.name = .ok ()) ∨
    ∃ l₁ p l₂ e, l = l₁ ++ p :: l₂ ∧ (∀ q ∈ l₁, bootR q.name = .ok ()) ∧
      bootR p.name = .error e := by
  induction l with
  | nil => exact Or.inl (by intro p hp; cases hp)
  | cons p rest ih =>
    cases hb : bootR p.name with
    | error e =>
      refine Or.inr ⟨[], p, rest, e, rfl, ?_, hb⟩
      intro q hq
      cases hq
    | ok u =>
      cases u
      cases ih with
      | inl hall =>
        refine Or.inl ?_
        intro q hq
        cases hq with
        | head => exact hb
        | tail _ h2 => exact hall q h2
      | inr hsplit =>
        obtain ⟨l₁, q, l₂, e, hl, hok, hfail⟩ := hsplit
        refine Or.inr ⟨p :: l₁, q, l₂, e, by simp [hl], ?_, hfail⟩
        intro r hr
        cases hr with
        | head => exact hb
        | tail _ h2 => exact hok r h2

theorem startApp_ok_shape {ε : Type} (emitR bootR shutR : String → Except ε Unit)
    (providers sortedP : List Provider)
    (hsort : topologicalSort providers = .ok sortedP)
    (hemit : emitR "app:starting" = .ok ())
    (hboot : ∀ p ∈ sortedP, bootR p.name = .ok ()) :
    (startApp emitR bootR shutR (mkApp providers)).1 =
      Ev.emitEv "app:starting" :: regEvents sortedP ++ bootEvents sortedP ++
        [Ev.emitEv "app:booted"] ∧
    (startApp emitR bootR shutR (mkApp providers)).2.1 =
      { providers := providers, bootedProviders := sortedP.map (fun p => p.name),
        booted := true, shuttingDown := false } := by
  have hbp := bootPhase_ok bootR shutR sortedP (mkApp providers) hboot
  simp only [mkApp] at hbp
  cases hb2 : emitR "app:booted" with
  | ok u =>
    constructor <;>
      simp [startApp, mkApp_booted, mkApp_providers, hemit, hsort, hbp, hb2,
        mkApp_bootedProviders, mkApp_shuttingDown, regEvents, mkApp]
  | error e2 =>
    constructor <;>
      simp [startApp, mkApp_booted, mkApp_providers, hemit, hsort, hbp, hb2,
        mkApp_bootedProviders, mkApp_shuttingDown, regEvents, mkApp]

theorem startApp_fail_shape {ε : Type} (emitR bootR shutR : String → Except ε Unit)
    (providers sortedP l₁ : List Provider) (p : Provider) (l₂ : List Provider) (e : ε)
    (hsort : topologicalSort providers = .ok sortedP)
    (hsplit : sortedP = l₁ ++ p :: l₂)
    (hemit : emitR "app:starting" = .ok ())
    (hok : ∀ q ∈ l₁, bootR q.name = .ok ())
    (hfail : bootR p.name = .error e) :
    startApp emitR bootR shutR (mkApp providers) =
      (Ev.emitEv "app:starting" :: regEvents sortedP ++
        (bootEvents l₁ ++ Ev.bootStart p.name ::
          shutdownLoop shutR ((l₁.map (fun q => q.name)).reverse)),
       mkApp providers, some (.inr e)) := by
  subst hsplit
  have hbp := bootPhase_fail bootR shutR l₁ p l₂ e (mkApp providers) hok hfail
  simp only [mkApp, List.nil_append] at hbp
  simp [startApp, mkApp_booted, mkApp_providers, hemit, hsort, hbp, regEvents, mkApp]

theorem startApp_none_inv {ε : Type} (emitR bootR shutR : String → Except ε Unit)
    (providers : List Provider) (tr : List Ev) (s' : AppState)
    (h : startApp emitR bootR shutR (mkApp providers) = (tr, s', none)) :
    s'.shuttingDown = false ∧ s'.booted = true ∧ s'.bootedProviders = bootEnds tr := by
  cases hemit : emitR "app:starting" with
  | error e =>
    rw [show startApp emitR bootR shutR (mkApp providers) =
        ([Ev.emitEv "app:starting"], mkApp providers, some (.inr e)) from by
      simp [startApp, mkApp_booted, hemit]] at h
    simp at h
  | ok u =>
    cases u
    cases hsort : topologicalSort providers with
    | error se =>
      rw [show startApp emitR bootR shutR (mkApp providers) =
          ([Ev.emitEv "app:starting"], mkApp providers, some (.inl se)) from by
        simp [startApp, mkApp_booted, mkApp_providers, hemit, hsort]] at h
      simp at h
    | ok sorted =>
      cases firstFailureSplit bootR sorted with
      | inr hsplit =>
        obtain ⟨l₁, p, l₂, e, hl, hok2, hfail⟩ := hsplit
        rw [startApp_fail_shape emitR bootR shutR providers sorted l₁ p l₂ e hsort hl
          hemit hok2 hfail] at h
        simp at h
      | inl hall =>
        obtain ⟨htr, hstate⟩ := startApp_ok_shape emitR bootR shutR providers sorted
          hsort hemit hall
        have hs' : s' = (startApp emitR bootR shutR (mkApp providers)).2.1 := by rw [h]
        have htr' : tr = (startApp emitR bootR shutR (mkApp providers)).1 := by rw [h]
        rw [hs', hstate]
        refine ⟨rfl, rfl, ?_⟩
        rw [htr', htr]
        simp [bootEnds_append, bootEnds_regEvents, bootEnds_bootEvents, bootEnds]

/-- C2: if a provider's `boot()` throws during `start()`, no further
provider's `boot()` is invoked, every provider that completed `boot()` is
shut down in exact reverse of boot-completion order (rollback errors being
caught and logged), the original error is re-thrown unmodified from
`start()`, and the application remains un-booted. -/
theorem boot_failure_rolls_back {ε : Type} (providers sortedP l₁ : List Provider)
    (p : Provider) (l₂ : List Provider) (e : ε)
    (emitR bootR shutR : String → Except ε Unit)
    (hsort : topologicalSort providers = .ok sortedP)
    (hsplit : sortedP = l₁ ++ p :: l₂)
    (hemit : emitR "app:starting" = .ok ())
    (hok : ∀ q ∈ l₁, bootR q.name = .ok ())
    (hfail : bootR p.name = .error e) :
    (startApp emitR bootR shutR (mkApp providers)).2.2 = some (.inr e) ∧
    (startApp emitR bootR shutR (mkApp providers)).2.1.booted = false ∧
    (startApp emitR bootR shutR (mkApp providers)).2.1.bootedProviders = [] ∧
    bootStarts (startApp emitR bootR shutR (mkApp providers)).1 =
      l₁.map (fun q => q.name) ++ [p.name] ∧
    bootEnds (startApp emitR bootR shutR (mkApp providers)).1 =
      l₁.map (fun q => q.name) ∧
    shutdownCalls (startApp emitR bootR shutR (mkApp providers)).1 =
      (l₁.map (fun q => q.name)).reverse ∧
    (∀ n, Ev.logError n ∈ (startApp emitR bootR shutR (mkApp providers)).1 ↔
      n ∈ l₁.map (fun q => q.name) ∧ ∃ er, shutR n = .error er) := by
  have hshape := startApp_fail_shape emitR bootR shutR providers sortedP l₁ p l₂ e
    hsort hsplit hemit hok hfail
  subst hsplit
  rw [hshape]
  refine ⟨rfl, rfl, rfl, ?_, ?_, ?_, ?_⟩
  · dsimp only
    rw [bootStarts_append, bootStarts_emitEv_cons, bootStarts_regEvents,
      bootStarts_append, bootStarts_bootEvents, bootStarts_bootStart_cons,
      shutdownLoop_no_bootStarts]
    simp
  · dsimp only
    rw [bootEnds_append, bootEnds_emitEv_cons, bootEnds_regEvents,
      bootEnds_append, bootEnds_bootEvents, bootEnds_bootStart_cons,
      shutdownLoop_no_bootEnds]
    simp
  · dsimp only
    rw [shutdownCalls_append, shutdownCalls_emitEv_cons, shutdownCalls_regEvents,
      shutdownCalls_append, shutdownCalls_bootEvents, shutdownCalls_bootStart_cons,
      shutdownLoop_calls]
    simp
  · intro n
    dsimp only
    simp only [List.mem_append, List.mem_cons]
    rw [shutdownLoop_logs]
    constructor
    · rintro ((hcon | hmem) | hmem | hcon | ⟨hmem, he⟩)
      · cases hcon
      · exact absurd hmem (logError_not_mem_regEvents n _)
      · exact absurd hmem (logError_not_mem_bootEvents n _)
      · cases hcon
      · exact ⟨by simpa using hmem, he⟩
    · rintro ⟨hmem, he⟩
      exact Or.inr (Or.inr (Or.inr ⟨by simpa using hmem, he⟩))

/-- C2 witness: the spec's example — `Database.boot()` throws, so
`Config.shutdown()` runs exactly once, `Auth.boot()` never runs, and the
original error propagates while the application stays un-booted. -/
theorem boot_failure_rolls_back_witness :
    (startApp allOk dbThrows allOk (mkApp demoProviders)).2.2 =
      some (.inr "db boom") ∧
    (startApp allOk dbThrows allOk (mkApp demoProviders)).2.1.booted = false ∧
    bootStarts (startApp allOk dbThrows allOk (mkApp demoProviders)).1 =
      ["config", "database"] ∧
    shutdownCalls (startApp allOk dbThrows allOk (mkApp demoProviders)).1 =
      ["config"] := by
  have h := boot_failure_rolls_back demoProviders [cfgP, dbP, authP] [cfgP] dbP [authP]
    "db boom" allOk dbThrows allOk rfl rfl rfl
    (by intro q hq; cases hq with
        | head => rfl
        | tail _ h2 => cases h2) rfl
  exact ⟨h.1, h.2.1, h.2.2.2.1, h.2.2.2.2.2.1⟩

/-- C3: `shutdown()` invokes provider `shutdown()` on exactly the providers
that completed `boot()` successfully, in exact reverse of realized
boot-completion order, for every shutdown-outcome oracle (so one
provider's throwing `shutdown()` never prevents the remaining booted
providers from being shut down); each throwing shutdown is caught and
logged. -/
theorem shutdown_reverse_boot_order {ε : Type} (providers : List Provider)
    (emitR bootR shutR emitR2 shutR2 : String → Except ε Unit) (tr : List Ev) (s' : AppState)
    (hstart : startApp emitR bootR shutR (mkApp providers) = (tr, s', none))
    (hemit2 : emitR2 "app:shutdown" = .ok ()) :
    shutdownCalls (shutdownApp emitR2 shutR2 s').1 = (bootEnds tr).reverse ∧
    (∀ n, Ev.logError n ∈ (shutdownApp emitR2 shutR2 s').1 ↔
      n ∈ bootEnds tr ∧ ∃ e, shutR2 n = .error e) ∧
    (shutdownApp emitR2 shutR2 s').2.1.bootedProviders = [] := by
  obtain ⟨hsd, _, hbooted⟩ := startApp_none_inv emitR bootR shutR providers tr s' hstart
  have hshape : (shutdownApp emitR2 shutR2 s').1 =
      Ev.emitEv "app:shutdown" :: Ev.timerStart ::
        shutdownLoop shutR2 s'.bootedProviders.reverse ++
        [Ev.timerClear, Ev.emitEv "app:terminated"] ∧
      (shutdownApp emitR2 shutR2 s').2.1.bootedProviders = [] := by
    cases h2 : emitR2 "app:terminated" with
    | ok u => constructor <;> simp [shutdownApp, hsd, hemit2, h2, shutdownProvidersM]
    | error e2 => constructor <;> simp [shutdownApp, hsd, hemit2, h2, shutdownProvidersM]
  refine ⟨?_, ?_, hshape.2⟩
  · rw [hshape.1, hbooted, shutdownCalls_append, shutdownCalls_emitEv_cons,
      shutdownCalls_timerStart_cons, shutdownLoop_calls, shutdownCalls_timer_tail,
      List.append_nil]
  · intro n
    rw [hshape.1, hbooted]
    simp only [List.mem_append, List.mem_cons]
    rw [shutdownLoop_logs]
    constructor
    · rintro ((hcon | hcon | ⟨hmem, he⟩) | hcon | hcon | hcon)
      · cases hcon
      · cases hcon
      · exact ⟨by simpa using hmem, he⟩
      · cases hcon
      · cases hcon
      · cases hcon
    · rintro ⟨hmem, he⟩
      exact Or.inl (Or.inr (Or.inr ⟨by simpa using hmem, he⟩))

/-- C3 witness: after a successful start of the worked example, shutdown
tears down auth, database, config in that order even though the database
shutdown throws, and the throwing one is the only logged error. -/
theorem shutdown_reverse_boot_order_witness :
    shutdownCalls (shutdownApp allOk dbThrows
      (startApp allOk allOk allOk (mkApp demoProviders)).2.1).1 =
      ["auth", "database", "config"] ∧
    (Ev.logError "database" ∈ (shutdownApp allOk dbThrows
      (startApp allOk allOk allOk (mkApp demoProviders)).2.1).1 ∧
     Ev.logError "config" ∉ (shutdownApp allOk dbThrows
      (startApp allOk allOk allOk (mkApp demoProviders)).2.1).1) := by
  have h := shutdown_reverse_boot_order demoProviders allOk allOk allOk allOk dbThrows
    (startApp allOk allOk allOk (mkApp demoProviders)).1
    (startApp allOk allOk allOk (mkApp demoProviders)).2.1
    rfl rfl
  refine ⟨?_, ?_, ?_⟩
  · rw [h.1]
    rfl
  · rw [h.2.1]
    exact ⟨by decide, "db boom", rfl⟩
  · rw [h.2.1]
    rintro ⟨_, e, he⟩
    simp [dbThrows] at he

/-- C10: the single-fire marker of `once` attaches to the listener function
itself, not the (event, listener) pair: `off` does not clear it, so after
`off` and re-registration through `on` the function is still single-fire;
and when the same function is subscribed to two events, the first emit of
one consumes the marker and removes the function only from that event's
set, leaving it an ordinary multi-fire listener of the other event. -/
theorem once_marker_is_per_function (s : EmitterState) (e₁ e₂ : String) (f : Nat)
    (hne : e₁ ≠ e₂) :
    ((offE e₁ f s).onceSet = s.onceSet) ∧
    (f ∈ (onE e₁ f (offE e₁ f (onceE e₁ f s))).onceSet ∧
      f ∈ (emitPrepare e₁ (onE e₁ f (offE e₁ f (onceE e₁ f s)))).1 ∧
      (∀ set,
        mapGet e₁ (emitPrepare e₁ (onE e₁ f (offE e₁ f (onceE e₁ f s)))).2.listeners =
          some set → f ∉ set)) ∧
    (f ∉ (emitPrepare e₁ (onE e₂ f (onceE e₁ f s))).2.onceSet ∧
      mapGet e₂ (emitPrepare e₁ (onE e₂ f (onceE e₁ f s))).2.listeners =
        mapGet e₂ (onE e₂ f (onceE e₁ f s)).listeners ∧
      (∃ set, mapGet e₂ (emitPrepare e₁ (onE e₂ f (onceE e₁ f s))).2.listeners =
        some set ∧ f ∈ set) ∧
      f ∈ (emitPrepare e₂ (emitPrepare e₁ (onE e₂ f (onceE e₁ f s))).2).1 ∧
      (∃ set,
        mapGet e₂
          (emitPrepare e₂ (emitPrepare e₁ (onE e₂ f (onceE e₁ f s))).2).2.listeners =
          some set ∧ f ∈ set)) := by
  have hmarker : f ∈ (onE e₁ f (offE e₁ f (onceE e₁ f s))).onceSet := by
    rw [onE_onceSet, offE_onceSet, onceE_onceSet]
    exact mem_setAdd_self f s.onceSet
  have hu1 : ∃ set, mapGet e₁ (onE e₂ f (onceE e₁ f s)).listeners = some set ∧ f ∈ set := by
    rw [onE_get_ne e₂ e₁ hne f (onceE e₁ f s)]
    unfold onceE
    exact onE_get_self e₁ f _
  have hu1' : f ∈ (mapGet e₁ (onE e₂ f (onceE e₁ f s)).listeners).getD [] := by
    obtain ⟨set, hget, hmem⟩ := hu1
    rw [hget]
    simpa using hmem
  have hu2 : ∃ set, mapGet e₂ (onE e₂ f (onceE e₁ f s)).listeners = some set ∧ f ∈ set :=
    onE_get_self e₂ f _
  have hlist2 : mapGet e₂ (emitPrepare e₁ (onE e₂ f (onceE e₁ f s))).2.listeners =
      mapGet e₂ (onE e₂ f (onceE e₁ f s)).listeners :=
    emitPrepare_listeners_ne e₁ e₂ (Ne.symm hne) _
  have honce2 : f ∉ (emitPrepare e₁ (onE e₂ f (onceE e₁ f s))).2.onceSet :=
    emitPrepare_onceSet_removes e₁ f _ hu1'
  have hlive2 : ∃ set,
      mapGet e₂ (emitPrepare e₁ (onE e₂ f (onceE e₁ f s))).2.listeners =
        some set ∧ f ∈ set := by
    rw [hlist2]
    exact hu2
  have hlive2' : f ∈
      (mapGet e₂ (emitPrepare e₁ (onE e₂ f (onceE e₁ f s))).2.listeners).getD [] := by
    obtain ⟨set, hget, hmem⟩ := hlive2
    rw [hget]
    simpa using hmem
  refine ⟨offE_onceSet e₁ f s, ⟨hmarker, ?_, ?_⟩, honce2, hlist2, hlive2, ?_, ?_⟩
  · rw [emitPrepare_fst]
    obtain ⟨set, hget, hmem⟩ := onE_get_self e₁ f (offE e₁ f (onceE e₁ f s))
    rw [hget]
    simpa using hmem
  · exact emitPrepare_not_mem_of_once e₁ f _ hmarker
  · rw [emitPrepare_fst]
    exact hlive2'
  · exact emitPrepare_keeps_listener e₂ f _ hlive2' honce2

/-- C9: if an `app:shutdown` subscriber throws, `shutdown()` propagates the
error after setting `_shuttingDown` but before starting the deadline timer
and before any provider `shutdown()` call; the flag is never reset on this
path, so every later `shutdown()` call is an immediate no-op and the
booted providers are never torn down. -/
theorem shutdown_emit_failure_wedges {ε : Type} (s : AppState)
    (emitR shutR emitR' shutR' : String → Except ε Unit) (e : ε)
    (hsd : s.shuttingDown = false) (hemit : emitR "app:shutdown" = .error e) :
    shutdownApp emitR shutR s =
      ([Ev.emitEv "app:shutdown"], { s with shuttingDown := true }, some e) ∧
    Ev.timerStart ∉ (shutdownApp emitR shutR s).1 ∧
    (∀ n, Ev.shutdownCall n ∉ (shutdownApp emitR shutR s).1) ∧
    ({ s with shuttingDown := true } : AppState).bootedProviders = s.bootedProviders ∧
    shutdownApp emitR' shutR' { s with shuttingDown := true } =
      ([], { s with shuttingDown := true }, none) := by
  have h1 : shutdownApp emitR shutR s =
      ([Ev.emitEv "app:shutdown"], { s with shuttingDown := true }, some e) := by
    unfold shutdownApp
    rw [hsd]
    simp [hemit]
  refine ⟨h1, ?_, ?_, rfl, ?_⟩
  · rw [h1]
    simp
  · intro n
    rw [h1]
    simp
  · unfold shutdownApp
    simp

/-- C9 witness: a booted application where the `app:shutdown` subscriber
throws. -/
theorem shutdown_emit_failure_wedges_witness :
    shutdownApp shutdownEmitThrows allOk
        ⟨demoProviders, ["config", "database", "auth"], true, false⟩ =
      ([Ev.emitEv "app:shutdown"],
        ⟨demoProviders, ["config", "database", "auth"], true, true⟩,
        some "listener boom") ∧
    shutdownApp allOk allOk
        ⟨demoProviders, ["config", "database", "auth"], true, true⟩ =
      ([], ⟨demoProviders, ["config", "database", "auth"], true, true⟩, none) := by
  have h := shutdown_emit_failure_wedges
    (⟨demoProviders, ["config", "database", "auth"], true, false⟩ : AppState)
    shutdownEmitThrows allOk allOk allOk "listener boom" rfl rfl
  exact ⟨h.1, h.2.2.2.2⟩

/-! ## Container lemmas -/

theorem resolve_error_iff (k : String) (s : ContainerState) :
    (∃ err, resolve k s = .error err) ↔ mapGet k s.factories = none := by
  unfold resolve
  cases h : mapGet k s.factories with
  | none => simp
  | some b =>
    simp only [Option.some.injEq]
    constructor
    · intro ⟨err, herr⟩
      cases b
      · cases herr
      · cases hc : mapGet k s.instances with
        | none => rw [hc] at herr; cases herr
        | some w => rw [hc] at herr; cases herr
    · intro hcon
      cases hcon

theorem resolve_cached (k : String) (s : ContainerState) (w : Nat)
    (hfac : mapGet k s.factories = some true) (hc : mapGet k s.instances = some w) :
    resolve k s = .ok (w, s) := by
  unfold resolve
  rw [hfac, hc]
  rfl

theorem resolve_uncached (k : String) (s : ContainerState)
    (hfac : mapGet k s.factories = some true) (hc : mapGet k s.instances = none) :
    resolve k s = .ok (s.nextId,
      { s with instances := mapSet k s.nextId s.instances,
               nextId := s.nextId + 1,
               factoryRuns := s.factoryRuns ++ [k] }) := by
  unfold resolve
  rw [hfac, hc]
  rfl

theorem resolve_transient (k : String) (s : ContainerState)
    (hfac : mapGet k s.factories = some false) :
    resolve k s = .ok (s.nextId,
      { s with nextId := s.nextId + 1, factoryRuns := s.factoryRuns ++ [k] }) := by
  unfold resolve
  rw [hfac]
  rfl

theorem count_single_ne (k k' : String) (hne : k' ≠ k) : List.count k [k'] = 0 := by
  simp only [List.count_singleton]
  simp [hne]

theorem resolve_preserves_singletonInv (k k' : String) (s : ContainerState)
    (cache : Option Nat) (hinv : SingletonInv k s cache) (v : Nat) (s' : ContainerState)
    (hres : resolve k' s = .ok (v, s')) :
    ∃ cache', SingletonInv k s' cache' ∧
      (∀ w, cache = some w → cache' = some w) ∧
      (k' = k → cache' = some v) := by
  obtain ⟨hfac, hcache, hcount⟩ := hinv
  by_cases heq : k' = k
  · subst heq
    cases hc : mapGet k' s.instances with
    | some w =>
      have heqn := (resolve_cached k' s w hfac hc).symm.trans hres
      simp only [Except.ok.injEq, Prod.mk.injEq] at heqn
      obtain ⟨hv, hs⟩ := heqn
      subst hv
      subst hs
      rw [hc] at hcache
      refine ⟨some w, ⟨hfac, hc, ?_⟩, ?_, fun _ => rfl⟩
      · rw [hcount, ← hcache]
      · intro w' hw'
        exact hcache.trans hw'
    | none =>
      have heqn := (resolve_uncached k' s hfac hc).symm.trans hres
      simp only [Except.ok.injEq, Prod.mk.injEq] at heqn
      obtain ⟨hv, hs⟩ := heqn
      subst hv
      rw [hc] at hcache
      subst hcache
      refine ⟨some s.nextId, ⟨?_, ?_, ?_⟩, fun w hw => Option.noConfusion hw, fun _ => rfl⟩
      · rw [← hs]
        exact hfac
      · rw [← hs]
        exact mapGet_mapSet_self k' s.nextId s.instances
      · rw [← hs]
        show (s.factoryRuns ++ [k']).count k' = _
        simp only [List.count_append, hcount]
        simp
  · -- resolving a different key leaves the singleton's cache and run count alone
    have hkeep : mapGet k s'.instances = cache ∧
        s'.factoryRuns.count k = s.factoryRuns.count k ∧
        mapGet k s'.factories = some true := by
      cases hk : mapGet k' s.factories with
      | none =>
        rw [show resolve k' s = .error ("Service \x22" ++ k' ++ "\x22 is not registered")
          from by unfold resolve; rw [hk]] at hres
        cases hres
      | some b =>
        cases b
        · have heqn := (resolve_transient k' s hk).symm.trans hres
          simp only [Except.ok.injEq, Prod.mk.injEq] at heqn
          obtain ⟨hv, hs⟩ := heqn
          refine ⟨?_, ?_, ?_⟩
          · rw [← hs]
            exact hcache
          · rw [← hs]
            show (s.factoryRuns ++ [k']).count k = _
            rw [List.count_append, count_single_ne k k' heq]
            omega
          · rw [← hs]
            exact hfac
        · cases hc : mapGet k' s.instances with
          | some w =>
            have heqn := (resolve_cached k' s w hk hc).symm.trans hres
            simp only [Except.ok.injEq, Prod.mk.injEq] at heqn
            obtain ⟨hv, hs⟩ := heqn
            exact ⟨by rw [← hs]; exact hcache, by rw [← hs], by rw [← hs]; exact hfac⟩
          | none =>
            have heqn := (resolve_uncached k' s hk hc).symm.trans hres
            simp only [Except.ok.injEq, Prod.mk.injEq] at heqn
            obtain ⟨hv, hs⟩ := heqn
            refine ⟨?_, ?_, ?_⟩
            · rw [← hs]
              show mapGet k (mapSet k' s.nextId s.instances) = _
              rw [mapGet_mapSet_ne k k' heq _ s.instances]
              exact hcache
            · rw [← hs]
              show (s.factoryRuns ++ [k']).count k = _
              rw [List.count_append, count_single_ne k k' heq]
              omega
            · rw [← hs]
              exact hfac
    exact ⟨cache, ⟨hkeep.2.2, hkeep.1, by rw [hkeep.2.1]; exact hcount⟩,
      fun w hw => hw, fun hcon => absurd hcon heq⟩

theorem resolveSeq_singleton (k : String) (ops : List String) :
    ∀ (s : ContainerState) (cache : Option Nat), SingletonInv k s cache →
    ∃ cache', SingletonInv k (resolveSeq ops s).2 cache' ∧
      (∀ w, cache = some w → cache' = some w) ∧
      (∀ pr ∈ (resolveSeq ops s).1, pr.1 = k → ∃ v, pr.2 = some v ∧ cache' = some v) := by
  induction ops with
  | nil =>
    intro s cache hinv
    exact ⟨cache, hinv, fun w hw => hw, by intro pr hpr; cases hpr⟩
  | cons k'' rest ih =>
    intro s cache hinv
    unfold resolveSeq
    cases hres : resolve k'' s with
    | error err =>
      have hne : k'' ≠ k := by
        intro hcon
        subst hcon
        have := (resolve_error_iff k'' s).1 ⟨err, hres⟩
        rw [hinv.1] at this
        cases this
      obtain ⟨cache', hinv', hprop, hres'⟩ := ih s cache hinv
      refine ⟨cache', hinv', hprop, ?_⟩
      intro pr hpr hk
      cases hpr with
      | head => exact absurd hk hne
      | tail _ htail => exact hres' pr htail hk
    | ok vs =>
      obtain ⟨v, s'⟩ := vs
      obtain ⟨cache₁, hinv₁, hprop₁, hfirst⟩ :=
        resolve_preserves_singletonInv k k'' s cache hinv v s' hres
      obtain ⟨cache', hinv', hprop, hres'⟩ := ih s' cache₁ hinv₁
      refine ⟨cache', hinv', fun w hw => hprop w (hprop₁ w hw), ?_⟩
      intro pr hpr hk
      cases hpr with
      | head =>
        refine ⟨v, rfl, ?_⟩
        exact hprop v (hfirst hk)
      | tail _ htail => exact hres' pr htail hk

/-- C5: `resolve(key)` throws a not-registered error iff the key has no
binding; a singleton binding's factory does not run at registration time,
runs on the first resolve, runs at most once across any sequence of
resolves, and every resolve of the key returns the identical cached
instance; a transient binding's factory runs afresh on every resolve and
returns a new, distinct instance. -/
theorem container_resolution_semantics (k : String) (s : ContainerState)
    (ops : List String) :
    ((∃ err, resolve k s = .error err) ↔ mapGet k s.factories = none) ∧
    ((singletonBinding k s).factoryRuns = s.factoryRuns) ∧
    (mapGet k s.factories = some true → mapGet k s.instances = none →
      ∃ s', resolve k s = .ok (s.nextId, s') ∧
        s'.factoryRuns = s.factoryRuns ++ [k]) ∧
    (mapGet k s.factories = some true → mapGet k s.instances = none →
      s.factoryRuns.count k = 0 →
      ((resolveSeq ops s).2.factoryRuns.count k ≤ 1 ∧
       ∃ v, ∀ pr ∈ (resolveSeq ops s).1, pr.1 = k → pr.2 = some v)) ∧
    (mapGet k s.factories = some false →
      ∃ v₁ s₁ v₂ s₂, resolve k s = .ok (v₁, s₁) ∧ resolve k s₁ = .ok (v₂, s₂) ∧
        v₁ ≠ v₂ ∧ s₁.factoryRuns = s.factoryRuns ++ [k] ∧
        s₂.factoryRuns = s.factoryRuns ++ [k, k]) := by
  refine ⟨resolve_error_iff k s, rfl, ?_, ?_, ?_⟩
  · intro hfac hcache
    exact ⟨_, resolve_uncached k s hfac hcache, rfl⟩
  · intro hfac hcache hcount
    have hinv : SingletonInv k s none := ⟨hfac, hcache, by simpa using hcount⟩
    obtain ⟨cache', hinv', _, hres⟩ := resolveSeq_singleton k ops s none hinv
    constructor
    · rw [hinv'.2.2]
      cases cache' <;> simp
    · cases hc : cache' with
      | some v =>
        refine ⟨v, fun pr hpr hk => ?_⟩
        obtain ⟨w, hw, hcw⟩ := hres pr hpr hk
        rw [hc] at hcw
        injection hcw with hcw
        rw [hw, hcw]
      | none =>
        refine ⟨0, fun pr hpr hk => ?_⟩
        obtain ⟨w, _, hcw⟩ := hres pr hpr hk
        rw [hc] at hcw
        cases hcw
  · intro hfac
    have h1 := resolve_transient k s hfac
    have h2 := resolve_transient k
      { s with nextId := s.nextId + 1, factoryRuns := s.factoryRuns ++ [k] } hfac
    exact ⟨s.nextId, _, s.nextId + 1, _, h1, h2, by omega, rfl, by simp⟩

/-- C5 witness: a container with singleton "logger" and transient "tmp". -/
theorem container_resolution_semantics_witness :
    (¬ ∃ err, resolve "logger"
      (registerBinding "tmp" (singletonBinding "logger" emptyContainer)) = .error err) ∧
    ((resolveSeq ["logger", "tmp", "logger", "tmp"]
        (registerBinding "tmp" (singletonBinding "logger" emptyContainer))).2.factoryRuns.count
          "logger" ≤ 1) ∧
    (∃ v, ∀ pr ∈ (resolveSeq ["logger", "tmp", "logger", "tmp"]
        (registerBinding "tmp" (singletonBinding "logger" emptyContainer))).1,
      pr.1 = "logger" → pr.2 = some v) := by
  have h := container_resolution_semantics "logger"
    (registerBinding "tmp" (singletonBinding "logger" emptyContainer))
    ["logger", "tmp", "logger", "tmp"]
  have h4 := h.2.2.2.1 rfl rfl rfl
  refine ⟨?_, h4.1, h4.2⟩
  intro hex
  have := h.1.1 hex
  cases this

/-- C10 witness: the multi-event and off/re-register behaviour at the
concrete events "user.registered" and "app:booted" with listener 7. -/
theorem once_marker_is_per_function_witness :
    ("user.registered" : String) ≠ "app:booted" ∧
    (offE "user.registered" 7 emptyEmitter).onceSet = emptyEmitter.onceSet ∧
    7 ∈ (emitPrepare "app:booted"
      (emitPrepare "user.registered"
        (onE "app:booted" 7 (onceE "user.registered" 7 emptyEmitter))).2).1 := by
  have h := once_marker_is_per_function emptyEmitter "user.registered" "app:booted" 7
    (by decide)
  exact ⟨by decide, h.1, h.2.2.2.2.2.1⟩


/-! ## Kahn's algorithm: counting lemmas -/

theorem countS_append (x : String) (a b : List String) :
    countS x (a ++ b) = countS x a + countS x b := by
  induction a with
  | nil => simp [countS]
  | cons y rest ih => simp [countS, ih]; omega

theorem countS_pos_iff (x : String) (l : List String) : 0 < countS x l ↔ x ∈ l := by
  induction l with
  | nil => simp [countS]
  | cons y rest ih =>
    by_cases h : y = x
    · subst h
      simp [countS]
    · simp [countS, h, ih, Ne.symm h]

theorem countS_eq_zero_of_not_mem (x : String) (l : List String) (h : x ∉ l) :
    countS x l = 0 := by
  by_contra hcon
  exact h ((countS_pos_iff x l).1 (Nat.pos_of_ne_zero hcon))

theorem countS_le_one_of_nodup (x : String) (l : List String) (h : l.Nodup) :
    countS x l ≤ 1 := by
  induction l with
  | nil => simp [countS]
  | cons y rest ih =>
    have hy : y ∉ rest := (List.nodup_cons.1 h).1
    have hrest := ih (List.nodup_cons.1 h).2
    by_cases hx : y = x
    · subst hx
      have : countS y rest = 0 := countS_eq_zero_of_not_mem y rest hy
      simp [countS, this]
    · simp [countS, hx]
      exact hrest

theorem nodup_of_countS_le_one (l : List String) (h : ∀ x, countS x l ≤ 1) : l.Nodup := by
  induction l with
  | nil => exact List.nodup_nil
  | cons y rest ih =>
    rw [List.nodup_cons]
    constructor
    · intro hmem
      have h1 := h y
      have h2 : 0 < countS y rest := (countS_pos_iff y rest).2 hmem
      simp [countS] at h1
      omega
    · refine ih ?_
      intro x
      have := h x
      simp only [countS] at this
      split at this <;> omega

theorem countOutside_nil (deps : List String) :
    countOutside [] deps = deps.length := by
  induction deps with
  | nil => rfl
  | cons d rest ih =>
    simp [countOutside, ih]
    omega

theorem countOutside_eq_zero_iff (sorted deps : List String) :
    countOutside sorted deps = 0 ↔ ∀ d ∈ deps, d ∈ sorted := by
  induction deps with
  | nil => simp [countOutside]
  | cons d rest ih =>
    by_cases h : d ∈ sorted <;> simp [countOutside, h, ih]

theorem countOutside_split (sorted deps : List String) (name : String)
    (hname : name ∉ sorted) :
    countOutside sorted deps = countOutside (sorted ++ [name]) deps + countS name deps := by
  induction deps with
  | nil => simp [countOutside, countS]
  | cons d rest ih =>
    by_cases h : d ∈ sorted
    · have h2 : d ∈ sorted ++ [name] := List.mem_append_left _ h
      have h3 : ¬ d = name := fun hc => hname (hc ▸ h)
      simp only [countOutside, countS, if_pos h, if_pos h2, if_neg h3]
      omega
    · by_cases h4 : d = name
      · have h2 : d ∈ sorted ++ [name] := by simp [h4]
        simp only [countOutside, countS, if_neg h, if_pos h2, if_pos h4]
        omega
      · have h2 : d ∉ sorted ++ [name] := by
          simp only [List.mem_append, List.mem_singleton]
          rintro (hc | hc)
          · exact h hc
          · exact h4 hc
        simp only [countOutside, countS, if_neg h, if_neg h2, if_neg h4]
        omega

theorem countOutside_subset_zero (sorted deps : List String)
    (h : ∀ d ∈ deps, d ∈ sorted) : countOutside sorted deps = 0 :=
  (countOutside_eq_zero_iff sorted deps).2 h

theorem countOutside_pos (sorted deps : List String)
    (h : countOutside sorted deps ≠ 0) : ∃ d ∈ deps, d ∉ sorted := by
  by_contra hcon
  push_neg at hcon
  exact h (countOutside_subset_zero sorted deps hcon)

/-! ## Kahn's algorithm: name lookup lemmas -/

theorem find?_name_eq (providers : List Provider)
    (hnodup : (providers.map (fun p => p.name)).Nodup) (p : Provider)
    (hp : p ∈ providers) :
    providers.find? (fun q => q.name = p.name) = some p := by
  induction providers with
  | nil => cases hp
  | cons q rest ih =>
    rw [List.map_cons, List.nodup_cons] at hnodup
    cases hp with
    | head => exact List.find?_cons_of_pos _ (by simp)
    | tail _ htail =>
      have hne : ¬ (q.name = p.name) := by
        intro hc
        exact hnodup.1 (hc ▸ List.mem_map_of_mem (fun r => r.name) htail)
      rw [List.find?_cons_of_neg _ (by simpa using hne)]
      exact ih hnodup.2 htail

theorem depsOfName_eq (providers : List Provider)
    (hnodup : (providers.map (fun p => p.name)).Nodup) (p : Provider)
    (hp : p ∈ providers) :
    depsOfName providers p.name = p.deps := by
  unfold depsOfName
  rw [find?_name_eq providers hnodup p hp]

theorem exists_provider_of_mem_names (providers : List Provider) (n : String)
    (hn : n ∈ providers.map (fun p => p.name)) :
    ∃ p ∈ providers, p.name = n := by
  obtain ⟨p, hp, hname⟩ := List.mem_map.1 hn
  exact ⟨p, hp, hname⟩

theorem countS_dependentsOf_not_mem (providers : List Provider) (d n : String)
    (hn : n ∉ providers.map (fun p => p.name)) :
    countS n (dependentsOf providers d) = 0 := by
  induction providers with
  | nil => rfl
  | cons p rest ih =>
    rw [List.map_cons] at hn
    have hpn : p.name ≠ n := fun hc => hn (by simp [hc])
    have hrest : n ∉ rest.map (fun p => p.name) := fun hc => hn (by simp [hc])
    unfold dependentsOf
    rw [List.flatMap_cons, countS_append]
    have h1 : countS n ((p.deps.filter (fun x => x = d)).map (fun _ => p.name)) = 0 := by
      generalize p.deps.filter (fun x => x = d) = l
      induction l with
      | nil => rfl
      | cons y ys ih2 => simpa [countS, hpn] using ih2
    rw [h1]
    simpa [dependentsOf] using ih hrest

theorem countS_dependentsOf_mem (providers : List Provider)
    (hnodup : (providers.map (fun p => p.name)).Nodup) (d : String) (p : Provider)
    (hp : p ∈ providers) :
    countS p.name (dependentsOf providers d) = countS d p.deps := by
  induction providers with
  | nil => cases hp
  | cons q rest ih =>
    rw [List.map_cons, List.nodup_cons] at hnodup
    have hseg : ∀ r : Provider,
        countS r.name ((q.deps.filter (fun x => x = d)).map (fun _ => q.name)) =
        if q.name = r.name then countS d q.deps else 0 := by
      intro r
      have hlen : ∀ l : List String,
          countS r.name (l.map (fun _ => q.name)) =
            if q.name = r.name then l.length else 0 := by
        intro l
        induction l with
        | nil => simp [countS]
        | cons y ys ih2 =>
          simp only [List.map_cons, countS, ih2, List.length_cons]
          split_ifs <;> omega
      rw [hlen]
      have hflen : (q.deps.filter (fun x => x = d)).length = countS d q.deps := by
        induction q.deps with
        | nil => rfl
        | cons y ys ih3 =>
          by_cases hy : y = d <;> simp [List.filter_cons, hy, countS, ih3] <;> omega
      rw [hflen]
    unfold dependentsOf
    rw [List.flatMap_cons, countS_append]
    cases hp with
    | head =>
      rw [hseg p, if_pos rfl]
      have : countS p.name (dependentsOf rest d) = 0 :=
        countS_dependentsOf_not_mem rest d p.name hnodup.1
      simpa [dependentsOf] using this
    | tail _ htail =>
      have hne : q.name ≠ p.name := by
        intro hc
        exact hnodup.1 (hc ▸ List.mem_map_of_mem (fun r => r.name) htail)
      rw [hseg p, if_neg hne]
      simpa [dependentsOf] using ih hnodup.2 htail

/-! ## Kahn's algorithm: the inner decrement loop -/

theorem processDeps_deg : ∀ (l : List String) (inDeg : String → Int)
    (queue : List String) (n : String),
    (processDeps inDeg queue l).1 n = inDeg n - countS n l := by
  intro l
  induction l with
  | nil =>
    intro inDeg queue n
    simp [processDeps, countS]
  | cons d rest ih =>
    intro inDeg queue n
    by_cases h : n = d
    · subst h
      simp only [processDeps]
      rw [ih]
      simp only [if_pos rfl, countS, if_pos rfl]
      push_cast
      omega
    · simp only [processDeps]
      rw [ih]
      have h2 : ¬ d = n := fun hc => h hc.symm
      simp only [if_neg h, countS, if_neg h2]
      push_cast
      omega

theorem processDeps_queue_countS : ∀ (l : List String) (inDeg : String → Int)
    (queue : List String) (n : String),
    countS n (processDeps inDeg queue l).2 =
      countS n queue +
        (if 1 ≤ inDeg n ∧ inDeg n ≤ (countS n l : Int) then 1 else 0) := by
  intro l
  induction l with
  | nil =>
    intro inDeg queue n
    have : ¬ (1 ≤ inDeg n ∧ inDeg n ≤ ((countS n [] : Nat) : Int)) := by
      simp only [countS]
      push_cast
      omega
    simp [processDeps, this]
  | cons d rest ih =>
    intro inDeg queue n
    simp only [processDeps]
    rw [ih]
    by_cases h : n = d
    · subst h
      have hq : ∀ b : List String, countS n (if inDeg n - 1 = 0 then b ++ [n] else b) =
          countS n b + (if inDeg n - 1 = 0 then 1 else 0) := by
        intro b
        split_ifs with hz
        · rw [countS_append]
          simp [countS]
        · omega
      have hred : (if n = n then inDeg n - 1 else inDeg n) = inDeg n - 1 := by simp
      rw [hq queue, hred]
      simp only [countS, eq_self_iff_true, if_true]
      push_cast
      split_ifs <;> omega
    · have h2 : ¬ d = n := fun hc => h hc.symm
      have hq : countS n (if inDeg d - 1 = 0 then queue ++ [d] else queue) =
          countS n queue := by
        split_ifs
        · rw [countS_append]
          simp [countS, h2]
        · rfl
      have hred : (if n = d then inDeg d - 1 else inDeg n) = inDeg n := by simp [h]
      rw [hq, hred]
      simp only [countS, if_neg h2]
      push_cast
      split_ifs <;> omega

theorem processDeps_queue_mem (l : List String) (inDeg : String → Int)
    (queue : List String) (n : String) :
    n ∈ (processDeps inDeg queue l).2 ↔
      n ∈ queue ∨ (1 ≤ inDeg n ∧ inDeg n ≤ (countS n l : Int)) := by
  constructor
  · intro hmem
    have hpos := (countS_pos_iff n _).2 hmem
    rw [processDeps_queue_countS] at hpos
    by_cases hc : 1 ≤ inDeg n ∧ inDeg n ≤ (countS n l : Int)
    · exact Or.inr hc
    · rw [if_neg hc] at hpos
      exact Or.inl ((countS_pos_iff n queue).1 (by omega))
  · intro h
    rw [← countS_pos_iff, processDeps_queue_countS]
    cases h with
    | inl hq =>
      have := (countS_pos_iff n queue).2 hq
      split_ifs <;> omega
    | inr hc =>
      rw [if_pos hc]
      omega

/-! ## Kahn's algorithm: invariant preservation -/

theorem depsSeenFirst_mem (providers : List Provider) :
    ∀ (seen l : List String), DepsSeenFirst providers seen l → ∀ n ∈ l,
      ∀ p ∈ providers, p.name = n → ∀ d ∈ p.deps, d ∈ seen ∨ d ∈ l := by
  intro seen l
  induction l generalizing seen with
  | nil =>
    intro _ n hn
    cases hn
  | cons m rest ih =>
    intro h n hn p hp hname d hd
    obtain ⟨hhead, htail⟩ := h
    cases hn with
    | head => exact Or.inl (hhead p hp hname d hd)
    | tail _ htl =>
      rcases ih (m :: seen) htail n htl p hp hname d hd with h2 | h2
      · cases List.mem_cons.1 h2 with
        | inl he => exact Or.inr (by simp [he])
        | inr hs => exact Or.inl hs
      · exact Or.inr (List.mem_cons_of_mem m h2)

theorem depsSeenFirst_append (providers : List Provider) (name : String) :
    ∀ (seen l : List String), DepsSeenFirst providers seen l →
      (∀ p ∈ providers, p.name = name → ∀ d ∈ p.deps, d ∈ seen ∨ d ∈ l) →
      DepsSeenFirst providers seen (l ++ [name]) := by
  intro seen l
  induction l generalizing seen with
  | nil =>
    intro _ hdep
    refine ⟨?_, trivial⟩
    intro p hp hname d hd
    rcases hdep p hp hname d hd with h | h
    · exact h
    · cases h
  | cons m rest ih =>
    intro h hdep
    obtain ⟨hhead, htail⟩ := h
    refine ⟨hhead, ?_⟩
    refine ih (m :: seen) htail ?_
    intro p hp hname d hd
    rcases hdep p hp hname d hd with h2 | h2
    · exact Or.inl (List.mem_cons_of_mem m h2)
    · cases List.mem_cons.1 h2 with
      | inl he => exact Or.inl (by simp [he])
      | inr hs => exact Or.inr hs

theorem kahn_step (providers : List Provider)
    (hnodup : (providers.map (fun p => p.name)).Nodup)
    (inDeg : String → Int) (name : String) (rest sorted : List String)
    (hinv : KahnInv providers inDeg (name :: rest) sorted) :
    KahnInv providers (processDeps inDeg rest (dependentsOf providers name)).1
      (processDeps inDeg rest (dependentsOf providers name)).2 (sorted ++ [name]) := by
  obtain ⟨hnd, hmem, hdeg, hq, hseen⟩ := hinv
  obtain ⟨hnames, hnmem, hdepsub⟩ := (hq name).1 (List.mem_cons_self name rest)
  -- the popped name's provider has all dependencies sorted
  have hdeg' : ∀ p ∈ providers,
      (processDeps inDeg rest (dependentsOf providers name)).1 p.name =
        (countOutside (sorted ++ [name]) p.deps : Int) := by
    intro p hp
    rw [processDeps_deg, hdeg p hp, countS_dependentsOf_mem providers hnodup name p hp,
      countOutside_split sorted p.deps name hnmem]
    push_cast
    omega
  -- a provider whose in-degree hits zero in this step
  have hcond : ∀ n, (1 ≤ inDeg n ∧ inDeg n ≤ (countS n (dependentsOf providers name) : Int)) →
      n ∈ providers.map (fun p => p.name) ∧ n ∉ sorted ++ [name] ∧
        (∀ d ∈ depsOfName providers n, d ∈ sorted ++ [name]) ∧ n ∉ name :: rest := by
    intro n hc
    obtain ⟨h1, h2⟩ := hc
    have hnames' : n ∈ providers.map (fun p => p.name) := by
      by_contra hcon
      rw [countS_dependentsOf_not_mem providers name n hcon] at h2
      push_cast at h2
      omega
    obtain ⟨p, hp, hpname⟩ := exists_provider_of_mem_names _ _ hnames'
    subst hpname
    have hdegp := hdeg p hp
    have hpos : countOutside sorted p.deps ≠ 0 := by
      intro hz
      rw [hdegp, hz] at h1
      push_cast at h1
    have hnot : p.name ∉ sorted := by
      intro hcon
      refine hpos (countOutside_subset_zero _ _ ?_)
      intro d hd
      rcases depsSeenFirst_mem providers [] sorted hseen p.name hcon p hp rfl d hd with
        h | h
      · cases h
      · exact h
    have hnotq : p.name ∉ name :: rest := by
      intro hcon
      obtain ⟨_, _, hsub⟩ := (hq p.name).1 hcon
      rw [depsOfName_eq providers hnodup p hp] at hsub
      exact hpos (countOutside_subset_zero _ _ hsub)
    have hne : p.name ≠ name := fun hcon => hnotq (by simp [hcon])
    refine ⟨hnames', ?_, ?_, hnotq⟩
    · simp only [List.mem_append, List.mem_singleton]
      rintro (hc2 | hc2)
      · exact hnot hc2
      · exact hne hc2
    · rw [depsOfName_eq providers hnodup p hp]
      have hd' := hdeg' p hp
      rw [processDeps_deg, hdegp,
        countS_dependentsOf_mem providers hnodup name p hp] at hd'
      rw [hdegp, countS_dependentsOf_mem providers hnodup name p hp] at h2
      have hz : countOutside (sorted ++ [name]) p.deps = 0 := by
        have hsplit := countOutside_split sorted p.deps name hnmem
        omega
      exact (countOutside_eq_zero_iff _ _).1 hz
  -- characterization of the new queue
  have hq' : ∀ n, n ∈ (processDeps inDeg rest (dependentsOf providers name)).2 ↔
      n ∈ providers.map (fun p => p.name) ∧ n ∉ sorted ++ [name] ∧
        ∀ d ∈ depsOfName providers n, d ∈ sorted ++ [name] := by
    intro n
    rw [processDeps_queue_mem]
    constructor
    · rintro (hrest | hcond2)
      · obtain ⟨ha, hb, hc⟩ := (hq n).1 (List.mem_cons_of_mem name hrest)
        have hqueue_nd : (name :: rest).Nodup := (List.nodup_append.1 hnd).2.1
        have hne : n ≠ name := by
          intro hcon
          exact (List.nodup_cons.1 hqueue_nd).1 (hcon ▸ hrest)
        refine ⟨ha, ?_, fun d hd => List.mem_append_left _ (hc d hd)⟩
        simp only [List.mem_append, List.mem_singleton]
        rintro (hcon | hcon)
        · exact hb hcon
        · exact hne hcon
      · obtain ⟨ha, hb, hc, _⟩ := hcond n hcond2
        exact ⟨ha, hb, hc⟩
    · rintro ⟨ha, hb, hc⟩
      by_cases hsub : ∀ d ∈ depsOfName providers n, d ∈ sorted
      · have hmemq : n ∈ name :: rest :=
          (hq n).2 ⟨ha, fun hcon => hb (List.mem_append_left _ hcon), hsub⟩
        cases List.mem_cons.1 hmemq with
        | inl he => exact absurd (by simp [he]) hb
        | inr hr => exact Or.inl hr
      · push_neg at hsub
        obtain ⟨d0, hd0, hd0n⟩ := hsub
        obtain ⟨p, hp, hpname⟩ := exists_provider_of_mem_names _ _ ha
        subst hpname
        rw [depsOfName_eq providers hnodup p hp] at hc hd0
        refine Or.inr ⟨?_, ?_⟩
        · rw [hdeg p hp]
          have hpos : countOutside sorted p.deps ≠ 0 := by
            intro hz
            exact hd0n ((countOutside_eq_zero_iff _ _).1 hz d0 hd0)
          omega
        · rw [hdeg p hp, countS_dependentsOf_mem providers hnodup name p hp]
          have hz : countOutside (sorted ++ [name]) p.deps = 0 :=
            countOutside_subset_zero _ _ hc
          have hsplit := countOutside_split sorted p.deps name hnmem
          omega
  refine ⟨?_, ?_, ?_, hq', ?_⟩
  · -- Nodup
    rw [List.nodup_append]
    obtain ⟨hsnd, hqnd, hdisj⟩ := List.nodup_append.1 hnd
    refine ⟨?_, ?_, ?_⟩
    · rw [List.nodup_append]
      refine ⟨hsnd, List.nodup_singleton _, ?_⟩
      intro a ha
      simp only [List.mem_singleton]
      intro hc
      exact hnmem (hc ▸ ha)
    · refine nodup_of_countS_le_one _ ?_
      intro x
      rw [processDeps_queue_countS]
      by_cases hcx : 1 ≤ inDeg x ∧ inDeg x ≤ (countS x (dependentsOf providers name) : Int)
      · rw [if_pos hcx]
        obtain ⟨_, _, _, hnotq⟩ := hcond x hcx
        have : x ∉ rest := fun hcon => hnotq (List.mem_cons_of_mem name hcon)
        rw [countS_eq_zero_of_not_mem x rest this]
      · rw [if_neg hcx]
        have hrestnd : rest.Nodup := (List.nodup_cons.1 hqnd).2
        have := countS_le_one_of_nodup x rest hrestnd
        omega
    · intro a ha hq2
      exact ((hq' a).1 hq2).2.1 ha
  · -- membership in names
    intro n hn
    rcases List.mem_append.1 hn with h | h
    · rcases List.mem_append.1 h with h2 | h2
      · exact hmem n (List.mem_append_left _ h2)
      · rw [List.mem_singleton] at h2
        exact h2 ▸ hnames
    · exact ((hq' n).1 h).1
  · exact hdeg'
  · -- DepsSeenFirst
    refine depsSeenFirst_append providers name [] sorted hseen ?_
    intro p hp hname d hd
    refine Or.inr ?_
    have := depsOfName_eq providers hnodup p hp
    rw [hname] at this
    rw [← this] at hd
    exact hdepsub d hd

/-! ## Kahn's algorithm: the sweep empties the queue and sorts everything -/

theorem kahnLoop_inv (providers : List Provider)
    (hnodup : (providers.map (fun p => p.name)).Nodup) :
    ∀ (fuel : Nat) (inDeg : String → Int) (queue sorted : List String),
      KahnInv providers inDeg queue sorted →
      providers.length ≤ fuel + sorted.length →
      ∃ inDeg', KahnInv providers inDeg' []
        (kahnLoop (dependentsOf providers) fuel inDeg queue sorted) := by
  intro fuel
  induction fuel with
  | zero =>
    intro inDeg queue sorted hinv hfuel
    have hlen : (sorted ++ queue).length ≤ providers.length := by
      have hsub : (sorted ++ queue) ⊆ providers.map (fun p => p.name) := hinv.2.1
      have := (hinv.1.subperm hsub).length_le
      simpa using this
    have hq : queue = [] := by
      rw [List.length_append] at hlen
      have : queue.length = 0 := by omega
      exact List.eq_nil_of_length_eq_zero this
    subst hq
    exact ⟨inDeg, by simpa [kahnLoop] using hinv⟩
  | succ fuel ih =>
    intro inDeg queue sorted hinv hfuel
    cases queue with
    | nil => exact ⟨inDeg, by simpa [kahnLoop] using hinv⟩
    | cons name rest =>
      have hstep := kahn_step providers hnodup inDeg name rest sorted hinv
      have hlen : providers.length ≤ fuel + (sorted ++ [name]).length := by
        rw [List.length_append]
        simp only [List.length_singleton]
        omega
      have hres := ih _ _ _ hstep hlen
      simpa [kahnLoop] using hres

theorem initInDeg_eq (providers : List Provider)
    (hnodup : (providers.map (fun p => p.name)).Nodup) (p : Provider)
    (hp : p ∈ providers) :
    initInDeg providers p.name = (p.deps.length : Int) := by
  unfold initInDeg
  rw [find?_name_eq providers hnodup p hp]

theorem kahnInv_init (providers : List Provider)
    (hnodup : (providers.map (fun p => p.name)).Nodup) :
    KahnInv providers (initInDeg providers) (initQueue providers) [] := by
  refine ⟨?_, ?_, ?_, ?_, trivial⟩
  · rw [List.nil_append]
    exact hnodup.sublist (List.Sublist.map _ (List.filter_sublist providers))
  · intro n hn
    rw [List.nil_append] at hn
    obtain ⟨p, hp, hpname⟩ := List.mem_map.1 hn
    exact hpname ▸ List.mem_map_of_mem _ (List.mem_of_mem_filter hp)
  · intro p hp
    rw [initInDeg_eq providers hnodup p hp, countOutside_nil]
  · intro n
    unfold initQueue
    constructor
    · intro hn
      obtain ⟨p, hp, hpname⟩ := List.mem_map.1 hn
      have hmemp := List.mem_of_mem_filter hp
      have hdeg0 : initInDeg providers p.name = 0 := by
        have := List.of_mem_filter hp
        simpa using this
      rw [initInDeg_eq providers hnodup p hmemp] at hdeg0
      have hdeps : p.deps = [] := by
        have : p.deps.length = 0 := by exact_mod_cast hdeg0
        exact List.eq_nil_of_length_eq_zero this
      subst hpname
      refine ⟨List.mem_map_of_mem _ hmemp, by simp, ?_⟩
      rw [depsOfName_eq providers hnodup p hmemp, hdeps]
      intro d hd
      cases hd
    · rintro ⟨hnames, _, hsub⟩
      obtain ⟨p, hp, hpname⟩ := exists_provider_of_mem_names _ _ hnames
      subst hpname
      rw [depsOfName_eq providers hnodup p hp] at hsub
      have hdeps : p.deps = [] := by
        cases hd : p.deps with
        | nil => rfl
        | cons d ds =>
          have := hsub d (by rw [hd]; simp)
          cases this
      have hdeg0 : initInDeg providers p.name = 0 := by
        rw [initInDeg_eq providers hnodup p hp, hdeps]
        rfl
      refine List.mem_map_of_mem _ (List.mem_filter_of_mem hp ?_)
      simpa using hdeg0

theorem kahn_complete (providers : List Provider)
    (hnodup : (providers.map (fun p => p.name)).Nodup)
    (hknown : ∀ p ∈ providers, ∀ d ∈ p.deps, d ∈ providers.map (fun p => p.name))
    (hacyc : Acyclic providers)
    (inDeg : String → Int) (sorted : List String)
    (hinv : KahnInv providers inDeg [] sorted) :
    ∀ n ∈ providers.map (fun p => p.name), n ∈ sorted := by
  obtain ⟨hnd, hmem, hdeg, hq, hseen⟩ := hinv
  have hmain : ∀ n, Acc (DepEdge providers) n →
      n ∈ providers.map (fun p => p.name) → n ∈ sorted := by
    intro n hacc
    induction hacc with
    | intro x hx ihx =>
      intro hxnames
      obtain ⟨p, hp, hpname⟩ := exists_provider_of_mem_names _ _ hxnames
      subst hpname
      have hsub : ∀ d ∈ depsOfName providers p.name, d ∈ sorted := by
        rw [depsOfName_eq providers hnodup p hp]
        intro d hd
        exact ihx d ⟨p, hp, rfl, hd⟩ (hknown p hp d hd)
      by_contra hcon
      have := (hq p.name).2 ⟨hxnames, hcon, hsub⟩
      cases this
  exact fun n hn => hmain n (hacyc.apply n) hn

/-! ## Acyclicity: sufficient conditions and consequences -/

theorem acyclic_of_rank (providers : List Provider) (rank : String → Nat)
    (h : ∀ p ∈ providers, ∀ d ∈ p.deps, rank d < rank p.name) :
    Acyclic providers := by
  refine Subrelation.wf ?_ (InvImage.wf rank Nat.lt_wfRel.wf)
  rintro d n ⟨p, hp, hpname, hd⟩
  exact hpname ▸ h p hp d hd

theorem acc_of_depsSeenFirst (providers : List Provider) :
    ∀ (seen l : List String), DepsSeenFirst providers seen l →
      (∀ m ∈ seen, Acc (DepEdge providers) m) →
      ∀ n ∈ l, Acc (DepEdge providers) n := by
  intro seen l
  induction l generalizing seen with
  | nil =>
    intro _ _ n hn
    cases hn
  | cons m rest ih =>
    intro h hseenacc n hn
    obtain ⟨hhead, htail⟩ := h
    have haccm : Acc (DepEdge providers) m := by
      refine Acc.intro m ?_
      rintro d ⟨p, hp, hpname, hd⟩
      exact hseenacc d (hhead p hp hpname d hd)
    cases hn with
    | head => exact haccm
    | tail _ htl =>
      refine ih (m :: seen) htail ?_ n htl
      intro m2 hm2
      cases List.mem_cons.1 hm2 with
      | inl he => exact he ▸ haccm
      | inr hs => exact hseenacc m2 hs

theorem acyclic_of_all_sorted (providers : List Provider) (sorted : List String)
    (hseen : DepsSeenFirst providers [] sorted)
    (hall : ∀ n ∈ providers.map (fun p => p.name), n ∈ sorted) :
    Acyclic providers := by
  constructor
  intro n
  by_cases hn : n ∈ providers.map (fun p => p.name)
  · exact acc_of_depsSeenFirst providers [] sorted hseen
      (by intro m hm; cases hm) n (hall n hn)
  · refine Acc.intro n ?_
    rintro d ⟨p, hp, hpname, _⟩
    exact absurd (hpname ▸ List.mem_map_of_mem (fun q => q.name) hp) hn

/-! ## topologicalSort: assembling the result -/

theorem firstDuplicate_none (providers : List Provider) :
    ∀ seen, (providers.map (fun p => p.name)).Nodup →
      (∀ n ∈ providers.map (fun p => p.name), n ∉ seen) →
      firstDuplicate providers seen = none := by
  induction providers with
  | nil => intro seen _ _; rfl
  | cons p rest ih =>
    intro seen hnodup hdisj
    rw [List.map_cons, List.nodup_cons] at hnodup
    unfold firstDuplicate
    rw [if_neg (hdisj p.name (by simp))]
    refine ih (p.name :: seen) hnodup.2 ?_
    intro n hn
    simp only [List.mem_cons]
    rintro (hc | hc)
    · exact hnodup.1 (hc ▸ hn)
    · exact hdisj n (by simp [hn]) hc

theorem firstUnknownDep_none (names : List String) (providers : List Provider)
    (hknown : ∀ p ∈ providers, ∀ d ∈ p.deps, d ∈ names) :
    firstUnknownDep names providers = none := by
  induction providers with
  | nil => rfl
  | cons p rest ih =>
    unfold firstUnknownDep
    have hfind : p.deps.find? (fun d => ¬ names.contains d) = none := by
      rw [List.find?_eq_none]
      intro d hd
      have hmem : d ∈ names := hknown p (by simp) d hd
      simp [List.contains, List.elem_iff, hmem]
    rw [hfind]
    exact ih (fun q hq d hd => hknown q (by simp [hq]) d hd)

theorem filterMap_names_providers (providers : List Provider)
    (hnodup : (providers.map (fun p => p.name)).Nodup) :
    ∀ l : List Provider, (∀ q ∈ l, q ∈ providers) →
      (l.map (fun p => p.name)).filterMap
        (fun n => providers.find? (fun p => p.name = n)) = l := by
  intro l
  induction l with
  | nil => intro _; rfl
  | cons q rest ih =>
    intro hsub
    rw [List.map_cons, List.filterMap_cons]
    rw [find?_name_eq providers hnodup q (hsub q (by simp))]
    rw [ih (fun r hr => hsub r (by simp [hr]))]

theorem filterMap_names_of_mem (providers : List Provider)
    (hnodup : (providers.map (fun p => p.name)).Nodup) :
    ∀ l : List String, (∀ n ∈ l, n ∈ providers.map (fun p => p.name)) →
      (l.filterMap (fun n => providers.find? (fun p => p.name = n))).map
        (fun p => p.name) = l := by
  intro l
  induction l with
  | nil => intro _; rfl
  | cons n rest ih =>
    intro hsub
    obtain ⟨p, hp, hpname⟩ := exists_provider_of_mem_names _ _ (hsub n (by simp))
    rw [List.filterMap_cons]
    rw [show providers.find? (fun q => q.name = n) = some p from by
      rw [← hpname]; exact find?_name_eq providers hnodup p hp]
    rw [List.map_cons, hpname, ih (fun m hm => hsub m (by simp [hm]))]

theorem depsSeenFirst_split (providers : List Provider) :
    ∀ (l₁ : List String) (seen l : List String), DepsSeenFirst providers seen l →
      ∀ (n : String) (l₂ : List String), l = l₁ ++ n :: l₂ →
        ∀ p ∈ providers, p.name = n → ∀ d ∈ p.deps, d ∈ seen ∨ d ∈ l₁ := by
  intro l₁
  induction l₁ with
  | nil =>
    intro seen l h n l₂ hsplit p hp hpname d hd
    subst hsplit
    exact Or.inl (h.1 p hp hpname d hd)
  | cons m rest ih =>
    intro seen l h n l₂ hsplit p hp hpname d hd
    subst hsplit
    obtain ⟨_, htail⟩ := h
    rcases ih (m :: seen) _ htail n l₂ rfl p hp hpname d hd with h2 | h2
    · cases List.mem_cons.1 h2 with
      | inl he => exact Or.inr (by simp [he])
      | inr hs => exact Or.inl hs
    · exact Or.inr (List.mem_cons_of_mem m h2)

theorem topologicalSort_ok (providers : List Provider)
    (hnodup : (providers.map (fun p => p.name)).Nodup)
    (hknown : ∀ p ∈ providers, ∀ d ∈ p.deps, d ∈ providers.map (fun p => p.name))
    (hacyc : Acyclic providers) :
    ∃ sortedP, topologicalSort providers = .ok sortedP ∧
      sortedP.map (fun p => p.name) = kahnSortedNames providers ∧
      sortedP.Perm providers ∧
      DepsSeenFirst providers [] (sortedP.map (fun p => p.name)) := by
  obtain ⟨inDeg', hinv⟩ := kahnLoop_inv providers hnodup (kahnFuel providers)
    (initInDeg providers) (initQueue providers) [] (kahnInv_init providers hnodup)
    (by unfold kahnFuel; simp)
  have hfinal : kahnLoop (dependentsOf providers) (kahnFuel providers)
      (initInDeg providers) (initQueue providers) [] = kahnSortedNames providers := rfl
  rw [hfinal] at hinv
  have hall : ∀ n ∈ providers.map (fun p => p.name), n ∈ kahnSortedNames providers :=
    kahn_complete providers hnodup hknown hacyc inDeg' _ hinv
  obtain ⟨hnd, hmem, _, _, hseen⟩ := hinv
  rw [List.append_nil] at hnd hmem
  -- the sorted names are a permutation of all names
  have hperm : (kahnSortedNames providers).Perm (providers.map (fun p => p.name)) := by
    rw [List.perm_ext_iff_of_nodup hnd hnodup]
    intro n
    exact ⟨fun h => hmem n h, fun h => hall n h⟩
  set sortedP := (kahnSortedNames providers).filterMap
    (fun n => providers.find? (fun p => p.name = n)) with hsortedP
  have hnames : sortedP.map (fun p => p.name) = kahnSortedNames providers :=
    filterMap_names_of_mem providers hnodup _ hmem
  have hpermP : sortedP.Perm providers := by
    have h1 : sortedP.Perm ((providers.map (fun p => p.name)).filterMap
        (fun n => providers.find? (fun p => p.name = n))) :=
      hperm.filterMap _
    rw [filterMap_names_providers providers hnodup providers (fun q hq => hq)] at h1
    exact h1
  refine ⟨sortedP, ?_, hnames, hpermP, by rw [hnames]; exact hseen⟩
  have hlen : sortedP.length = providers.length := hpermP.length_eq
  simp only [topologicalSort,
    firstDuplicate_none providers [] hnodup (by intro n _ hc; cases hc),
    firstUnknownDep_none _ providers hknown]
  rw [if_pos hlen]

/-! ## C1: start computes and follows a topological order -/

/-- C1: for every provider set whose names are pairwise distinct, whose
every declared dependency names some provider in the set, and whose
dependency graph is acyclic, `start()` computes an order containing every
provider exactly once (a permutation of the set) in which each provider
appears strictly after all of its declared dependencies, and boots the
providers in exactly that order. -/
theorem start_boots_in_topological_order {ε : Type} (providers : List Provider)
    (emitR bootR shutR : String → Except ε Unit)
    (hnodup : (providers.map (fun p => p.name)).Nodup)
    (hknown : ∀ p ∈ providers, ∀ d ∈ p.deps, d ∈ providers.map (fun p => p.name))
    (hacyc : Acyclic providers)
    (hemit : emitR "app:starting" = .ok ())
    (hboot : ∀ n, bootR n = .ok ()) :
    ∃ sortedP, topologicalSort providers = .ok sortedP ∧
      sortedP.Perm providers ∧
      (∀ l₁ p l₂, sortedP = l₁ ++ p :: l₂ → ∀ d ∈ p.deps,
        d ∈ l₁.map (fun q => q.name)) ∧
      bootStarts (startApp emitR bootR shutR (mkApp providers)).1 =
        sortedP.map (fun p => p.name) ∧
      bootEnds (startApp emitR bootR shutR (mkApp providers)).1 =
        sortedP.map (fun p => p.name) := by
  obtain ⟨sortedP, hok, hnames, hperm, hseen⟩ :=
    topologicalSort_ok providers hnodup hknown hacyc
  obtain ⟨htr, _⟩ := startApp_ok_shape emitR bootR shutR providers sortedP hok hemit
    (fun p _ => hboot p.name)
  refine ⟨sortedP, hok, hperm, ?_, ?_, ?_⟩
  · intro l₁ p l₂ hsplit d hd
    have hsplitn : sortedP.map (fun q => q.name) =
        l₁.map (fun q => q.name) ++ p.name :: l₂.map (fun q => q.name) := by
      rw [hsplit]
      simp
    have hp : p ∈ providers := hperm.mem_iff.1 (by rw [hsplit]; simp)
    have := depsSeenFirst_split providers (l₁.map (fun q => q.name)) [] _ hseen p.name
      (l₂.map (fun q => q.name)) hsplitn p hp rfl d hd
    rcases this with h | h
    · cases h
    · exact h
  · rw [htr, bootStarts_append, bootStarts_append, bootStarts_emitEv_cons,
      bootStarts_regEvents, bootStarts_bootEvents]
    simp [bootStarts]
  · rw [htr, bootEnds_append, bootEnds_append, bootEnds_emitEv_cons,
      bootEnds_regEvents, bootEnds_bootEvents]
    simp [bootEnds]

/-- C1 witness: the worked example [auth, database, config] boots
config → database → auth. -/
theorem start_boots_in_topological_order_witness :
    ∃ sortedP, topologicalSort demoProviders = .ok sortedP ∧
      sortedP.Perm demoProviders ∧
      (∀ l₁ p l₂, sortedP = l₁ ++ p :: l₂ → ∀ d ∈ p.deps,
        d ∈ l₁.map (fun q => q.name)) ∧
      bootStarts (startApp allOk allOk allOk (mkApp demoProviders)).1 =
        sortedP.map (fun p => p.name) ∧
      bootEnds (startApp allOk allOk allOk (mkApp demoProviders)).1 =
        sortedP.map (fun p => p.name) :=
  start_boots_in_topological_order demoProviders allOk allOk allOk
    (by decide) (by decide)
    (acyclic_of_rank demoProviders
      (fun n => if n = "config" then 0 else if n = "database" then 1 else 2)
      (by decide))
    rfl (fun _ => rfl)

/-! ## C8: phase and boot ordering inside start -/

theorem regCall_not_mem_bootEvents (n : String) (l : List Provider) :
    Ev.regCall n ∉ bootEvents l := by
  simp [bootEvents]

theorem bootStart_not_mem_regEvents (n : String) (l : List Provider) :
    Ev.bootStart n ∉ regEvents l := by
  simp [regEvents]

theorem get?_split_lt (t₁ t₂ : List Ev) (x y : Ev) (hx : x ∉ t₂) (hy : y ∉ t₁) :
    ∀ i j, (t₁ ++ t₂).get? i = some x → (t₁ ++ t₂).get? j = some y → i < j := by
  intro i j hxi hyj
  have hi : i < t₁.length := by
    by_contra hcon
    push_neg at hcon
    rw [List.get?_append_right hcon] at hxi
    exact hx (List.get?_mem hxi)
  have hj : t₁.length ≤ j := by
    by_contra hcon
    push_neg at hcon
    rw [List.get?_append hcon] at hyj
    exact hy (List.get?_mem hyj)
  omega

/-- C8: during `start()`, `register(app)` is called on every provider in
sorted order and all register calls complete before any provider's
`boot(app)` begins; boots then run strictly sequentially in sorted order,
each awaited to completion before the next begins, so no provider's boot
starts before every one of its declared dependencies has completed its own
boot. -/
theorem start_registers_before_boots {ε : Type} (providers : List Provider)
    (emitR bootR shutR : String → Except ε Unit)
    (hnodup : (providers.map (fun p => p.name)).Nodup)
    (hknown : ∀ p ∈ providers, ∀ d ∈ p.deps, d ∈ providers.map (fun p => p.name))
    (hacyc : Acyclic providers)
    (hemit : emitR "app:starting" = .ok ())
    (hboot : ∀ n, bootR n = .ok ()) :
    ∃ sortedP, topologicalSort providers = .ok sortedP ∧ sortedP.Perm providers ∧
      (startApp emitR bootR shutR (mkApp providers)).1 =
        Ev.emitEv "app:starting" :: regEvents sortedP ++ bootEvents sortedP ++
          [Ev.emitEv "app:booted"] ∧
      (∀ i j n m,
        (startApp emitR bootR shutR (mkApp providers)).1.get? i =
          some (Ev.regCall n) →
        (startApp emitR bootR shutR (mkApp providers)).1.get? j =
          some (Ev.bootStart m) → i < j) ∧
      (∀ p ∈ providers, ∀ d ∈ p.deps, ∃ i j, i < j ∧
        (startApp emitR bootR shutR (mkApp providers)).1.get? i =
          some (Ev.bootEnd d) ∧
        (startApp emitR bootR shutR (mkApp providers)).1.get? j =
          some (Ev.bootStart p.name)) := by
  obtain ⟨sortedP, hok, hnames, hperm, hseen⟩ :=
    topologicalSort_ok providers hnodup hknown hacyc
  obtain ⟨htr, _⟩ := startApp_ok_shape emitR bootR shutR providers sortedP hok hemit
    (fun p _ => hboot p.name)
  refine ⟨sortedP, hok, hperm, htr, ?_, ?_⟩
  · -- all register calls precede all boot starts
    intro i j n m hi hj
    have htr2 : (startApp emitR bootR shutR (mkApp providers)).1 =
        (Ev.emitEv "app:starting" :: regEvents sortedP) ++
          (bootEvents sortedP ++ [Ev.emitEv "app:booted"]) := by
      rw [htr]
      simp [List.append_assoc]
    rw [htr2] at hi hj
    refine get?_split_lt _ _ _ _ ?_ ?_ i j hi hj
    · simp only [List.mem_append, List.mem_singleton]
      rintro (hc | hc)
      · exact regCall_not_mem_bootEvents n sortedP hc
      · cases hc
    · simp only [List.mem_cons]
      rintro (hc | hc)
      · cases hc
      · exact bootStart_not_mem_regEvents m sortedP hc
  · -- a provider's boot start is preceded by each dependency's boot end
    intro p hp d hd
    obtain ⟨l₁, l₂, hsplit⟩ := List.append_of_mem (hperm.mem_iff.2 hp)
    have hsplitn : sortedP.map (fun q => q.name) =
        l₁.map (fun q => q.name) ++ p.name :: l₂.map (fun q => q.name) := by
      rw [hsplit]
      simp
    have hdmem : d ∈ l₁.map (fun q => q.name) := by
      have := depsSeenFirst_split providers (l₁.map (fun q => q.name)) [] _ hseen p.name
        (l₂.map (fun q => q.name)) hsplitn p hp rfl d hd
      rcases this with h | h
      · cases h
      · exact h
    obtain ⟨q, hq, hqname⟩ := List.mem_map.1 hdmem
    have hbe : bootEvents sortedP = bootEvents l₁ ++
        (Ev.bootStart p.name :: Ev.bootEnd p.name :: bootEvents l₂) := by
      rw [hsplit]
      simp [bootEvents, List.flatMap_append, List.flatMap_cons]
    have htr2 : (startApp emitR bootR shutR (mkApp providers)).1 =
        ((Ev.emitEv "app:starting" :: regEvents sortedP) ++ bootEvents l₁) ++
          (Ev.bootStart p.name ::
            (Ev.bootEnd p.name :: (bootEvents l₂ ++ [Ev.emitEv "app:booted"]))) := by
      rw [htr, hbe]
      simp [List.append_assoc]
    have hmemEnd : Ev.bootEnd d ∈
        (Ev.emitEv "app:starting" :: regEvents sortedP) ++ bootEvents l₁ := by
      refine List.mem_append_right _ ?_
      simp only [bootEvents, List.mem_flatMap]
      exact ⟨q, hq, by simp [hqname]⟩
    obtain ⟨i, hi⟩ := List.mem_iff_get?.1 hmemEnd
    have hilen : i <
        ((Ev.emitEv "app:starting" :: regEvents sortedP) ++ bootEvents l₁).length := by
      by_contra hcon
      push_neg at hcon
      rw [List.get?_eq_none.2 hcon] at hi
      cases hi
    refine ⟨i, ((Ev.emitEv "app:starting" :: regEvents sortedP) ++ bootEvents l₁).length,
      hilen, ?_, ?_⟩
    · rw [htr2, List.get?_append hilen]
      exact hi
    · rw [htr2, List.get?_append_right (le_refl _)]
      simp

/-- C8 witness: the worked example, started with all-successful oracles. -/
theorem start_registers_before_boots_witness :
    ∃ sortedP, topologicalSort demoProviders = .ok sortedP ∧
      sortedP.Perm demoProviders ∧
      (startApp allOk allOk allOk (mkApp demoProviders)).1 =
        Ev.emitEv "app:starting" :: regEvents sortedP ++ bootEvents sortedP ++
          [Ev.emitEv "app:booted"] ∧
      (∀ i j n m,
        (startApp allOk allOk allOk (mkApp demoProviders)).1.get? i =
          some (Ev.regCall n) →
        (startApp allOk allOk allOk (mkApp demoProviders)).1.get? j =
          some (Ev.bootStart m) → i < j) ∧
      (∀ p ∈ demoProviders, ∀ d ∈ p.deps, ∃ i j, i < j ∧
        (startApp allOk allOk allOk (mkApp demoProviders)).1.get? i =
          some (Ev.bootEnd d) ∧
        (startApp allOk allOk allOk (mkApp demoProviders)).1.get? j =
          some (Ev.bootStart p.name)) :=
  start_registers_before_boots demoProviders allOk allOk allOk
    (by decide) (by decide)
    (acyclic_of_rank demoProviders
      (fun n => if n = "config" then 0 else if n = "database" then 1 else 2)
      (by decide))
    rfl (fun _ => rfl)

/-! ## C4: cycles are detected and reported -/

theorem not_acyclic_of_two_cycle (providers : List Provider) (x y : String)
    (hxy : DepEdge providers x y) (hyx : DepEdge providers y x) :
    ¬ Acyclic providers := by
  intro hwf
  have hmain : ∀ z : String, Acc (DepEdge providers) z → ¬ (z = x ∨ z = y) := by
    intro z hacc
    induction hacc with
    | intro w hw ihw =>
      rintro (rfl | rfl)
      · exact ihw y hyx (Or.inr rfl)
      · exact ihw x hxy (Or.inl rfl)
  exact hmain x (hwf.apply x) (Or.inl rfl)

theorem startApp_no_boot_of_sort_error {ε : Type} (emitR bootR shutR : String → Except ε Unit)
    (providers : List Provider) (se : SortError)
    (hsort : topologicalSort providers = .error se) :
    bootStarts (startApp emitR bootR shutR (mkApp providers)).1 = [] := by
  cases hemit : emitR "app:starting" with
  | error e =>
    rw [show startApp emitR bootR shutR (mkApp providers) =
        ([Ev.emitEv "app:starting"], mkApp providers, some (.inr e)) from by
      simp [startApp, mkApp_booted, hemit]]
    rfl
  | ok u =>
    cases u
    rw [show startApp emitR bootR shutR (mkApp providers) =
        ([Ev.emitEv "app:starting"], mkApp providers, some (.inl se)) from by
      simp [startApp, mkApp_booted, mkApp_providers, hemit, hsort]]
    rfl

/-- C4: for every provider set with unique names and all dependencies
known whose dependency graph contains a cycle, `start()` fails with a
circular-dependency error naming exactly the providers left out of the
Kahn sweep's sorted order — a nonempty set each member of which has a
dependency also in the set — and no provider's `boot()` is ever called;
in particular, for the two-provider cycle a↔b the error names exactly
{a, b}. -/
theorem cycle_detected_and_reported (providers : List Provider)
    (hnodup : (providers.map (fun p => p.name)).Nodup)
    (hknown : ∀ p ∈ providers, ∀ d ∈ p.deps, d ∈ providers.map (fun p => p.name))
    (hcyc : ¬ Acyclic providers) :
    (∃ rem, topologicalSort providers = .error (.circular rem) ∧
      rem = (providers.filter
        (fun p => ¬ (kahnSortedNames providers).contains p.name)).map
          (fun p => p.name) ∧
      rem ≠ [] ∧
      (∀ n ∈ rem, ∃ p ∈ providers, p.name = n ∧ ∃ d ∈ p.deps, d ∈ rem)) ∧
    (∀ {ε : Type} (emitR bootR shutR : String → Except ε Unit),
      bootStarts (startApp emitR bootR shutR (mkApp providers)).1 = []) ∧
    topologicalSort cycleProviders = .error (.circular ["a", "b"]) := by
  obtain ⟨inDeg', hinv⟩ := kahnLoop_inv providers hnodup (kahnFuel providers)
    (initInDeg providers) (initQueue providers) [] (kahnInv_init providers hnodup)
    (by unfold kahnFuel; simp)
  have hfinal : kahnLoop (dependentsOf providers) (kahnFuel providers)
      (initInDeg providers) (initQueue providers) [] = kahnSortedNames providers := rfl
  rw [hfinal] at hinv
  obtain ⟨hnd, hmem, _, hq, hseen⟩ := hinv
  rw [List.append_nil] at hnd hmem
  -- some provider name is missing from the sorted order
  have hmiss : ∃ n0 ∈ providers.map (fun p => p.name),
      n0 ∉ kahnSortedNames providers := by
    by_contra hcon
    push_neg at hcon
    exact hcyc (acyclic_of_all_sorted providers _ hseen hcon)
  obtain ⟨n0, hn0names, hn0⟩ := hmiss
  -- hence the filterMap result is strictly shorter than the provider list
  have hnameseq : ((kahnSortedNames providers).filterMap
      (fun n => providers.find? (fun p => p.name = n))).map (fun p => p.name) =
      kahnSortedNames providers := filterMap_names_of_mem providers hnodup _ hmem
  have hlenlt : ((kahnSortedNames providers).filterMap
      (fun n => providers.find? (fun p => p.name = n))).length < providers.length := by
    have h1 : ((kahnSortedNames providers).filterMap
        (fun n => providers.find? (fun p => p.name = n))).length =
        (kahnSortedNames providers).length := by
      rw [show ((kahnSortedNames providers).filterMap
          (fun n => providers.find? (fun p => p.name = n))).length =
        (((kahnSortedNames providers).filterMap
          (fun n => providers.find? (fun p => p.name = n))).map
            (fun p => p.name)).length from (List.length_map _ _).symm, hnameseq]
    have hsub : kahnSortedNames providers ⊆
        (providers.map (fun p => p.name)).erase n0 := by
      intro d hd
      have hdn : d ≠ n0 := fun hc => hn0 (hc ▸ hd)
      exact (List.mem_erase_of_ne hdn).2 (hmem d hd)
    have h2 := (hnd.subperm hsub).length_le
    have h3 : ((providers.map (fun p => p.name)).erase n0).length =
        (providers.map (fun p => p.name)).length - 1 :=
      List.length_erase_of_mem hn0names
    have h4 : 0 < (providers.map (fun p => p.name)).length :=
      List.length_pos_of_mem hn0names
    rw [List.length_map] at *
    omega
  have herr : topologicalSort providers = .error (.circular
      ((providers.filter
        (fun p => ¬ (kahnSortedNames providers).contains p.name)).map
          (fun p => p.name))) := by
    simp only [topologicalSort,
      firstDuplicate_none providers [] hnodup (by intro n _ hc; cases hc),
      firstUnknownDep_none _ providers hknown]
    rw [if_neg (by omega)]
  refine ⟨⟨_, herr, rfl, ?_, ?_⟩, ?_, ?_⟩
  · -- the remaining set is nonempty
    obtain ⟨p0, hp0, hp0name⟩ := exists_provider_of_mem_names _ _ hn0names
    intro hcon
    rw [List.map_eq_nil] at hcon
    have : p0 ∈ providers.filter
        (fun p => ¬ (kahnSortedNames providers).contains p.name) := by
      refine List.mem_filter_of_mem hp0 ?_
      simp [List.contains, List.elem_iff, hp0name, hn0]
    rw [hcon] at this
    cases this
  · -- every remaining provider has a dependency that also remains
    intro n hn
    obtain ⟨p, hpf, hpname⟩ := List.mem_map.1 hn
    have hp : p ∈ providers := List.mem_of_mem_filter hpf
    have hpnot : p.name ∉ kahnSortedNames providers := by
      have := List.of_mem_filter hpf
      simpa [List.contains, List.elem_iff] using this
    -- queue is empty, so p has an unsorted dependency
    have : ¬ (p.name ∈ providers.map (fun q => q.name) ∧
        p.name ∉ kahnSortedNames providers ∧
        ∀ d ∈ depsOfName providers p.name, d ∈ kahnSortedNames providers) := by
      intro hc
      have := (hq p.name).2 hc
      cases this
    push_neg at this
    have hdep := this (List.mem_map_of_mem _ hp) hpnot
    obtain ⟨d, hd, hdnot⟩ := hdep
    rw [depsOfName_eq providers hnodup p hp] at hd
    obtain ⟨q, hqmem, hqname⟩ :=
      exists_provider_of_mem_names _ _ (hknown p hp d hd)
    refine ⟨p, hp, hpname, d, hd, ?_⟩
    refine List.mem_map.2 ⟨q, ?_, hqname⟩
    refine List.mem_filter_of_mem hqmem ?_
    simp [List.contains, List.elem_iff, hqname, hdnot]
  · intro ε emitR bootR shutR
    exact startApp_no_boot_of_sort_error emitR bootR shutR providers _ herr
  · rfl

/-- C4 witness: the two-provider cycle a↔b. -/
theorem cycle_detected_and_reported_witness :
    (∃ rem, topologicalSort cycleProviders = .error (.circular rem) ∧
      rem = (cycleProviders.filter
        (fun p => ¬ (kahnSortedNames cycleProviders).contains p.name)).map
          (fun p => p.name) ∧
      rem ≠ [] ∧
      (∀ n ∈ rem, ∃ p ∈ cycleProviders, p.name = n ∧ ∃ d ∈ p.deps, d ∈ rem)) ∧
    bootStarts (startApp allOk allOk allOk (mkApp cycleProviders)).1 = [] := by
  have h := cycle_detected_and_reported cycleProviders (by decide) (by decide)
    (not_acyclic_of_two_cycle cycleProviders "b" "a"
      ⟨cycleA, by simp [cycleProviders], rfl, by simp [cycleA]⟩
      ⟨cycleB, by simp [cycleProviders], rfl, by simp [cycleB]⟩)
  exact ⟨h.1, h.2.1 allOk allOk allOk⟩
